import Mathlib

/-!
Verification of the jj-ryu submission engine against its implementation.

Strings of the Rust sources are embedded as `List Char`; machine integers
(`u64`, `u32`, `usize`) are embedded as `Nat` (no arithmetic in the embedded
code can overflow or wrap). Fallible Rust functions returning `Result` are
embedded as `Except Err`; `Option` stays `Option`. Hash maps are embedded as
association lists (iteration order of the Rust `HashMap` is unspecified; the
embedding fixes the list order and states order-independent properties where
the source iterates a map).
-/

namespace JjRyu

/-- Rust strings are embedded as lists of characters. -/
abbrev Str := List Char

/-- Conversion from Lean string literals to the embedding type. -/
def str (s : String) : Str := s.data

/-- The single-quote character, used inside error messages. -/
def sq : Char := Char.ofNat 39

/-- Platform kinds, from the types module (modelled from the spec, section 6,
and the match arms in src/platform/factory.rs and src/platform/detection.rs). -/
inductive Platform where
  | GitHub
  | GitLab
  | AzureDevOps
deriving DecidableEq, Repr

/-- Platform configuration produced by URL detection
(fields as used in src/platform/detection.rs). -/
structure PlatformConfig where
  platform : Platform
  owner : Str
  repo : Str
  host : Option Str
deriving DecidableEq, Repr

/-- Error kinds. Modelled from the spec (section 7) and the variants used in
the sources under src/ (cli/submit.rs, platform/detection.rs). Only the
variants the embedded code constructs are included. -/
inductive Err where
  | InvalidArgument (msg : Str)
  | Internal (msg : Str)
  | Parse (msg : Str)
  | NoSupportedRemotes
  | BookmarkNotFound (name : Str)
  | RemoteNotFound (name : Str)
deriving DecidableEq, Repr

/-- Platform-side pull request value (modelled from the spec, section 3;
field set as used in src/platform/github.rs and src/platform/azure_devops.rs). -/
structure PullRequest where
  number : Nat
  html_url : Str
  base_ref : Str
  head_ref : Str
  title : Str
  node_id : Option Str
  is_draft : Bool
deriving DecidableEq, Repr

/-- A bookmark: named local ref (modelled from the spec, section 3; fields as
used in src/cli/submit.rs). -/
structure Bookmark where
  name : Str
  has_remote : Bool
  is_synced : Bool
deriving DecidableEq, Repr

/-- One analysis segment: representative bookmark plus base/title metadata
(modelled from the spec, section 4.1; fields as used in src/cli/submit.rs). -/
structure AnalysisSegment where
  bookmark : Bookmark
  base_branch : Str
  title : Str
deriving DecidableEq, Repr

/-- Default segment used to embed Rust slice indexing: all indexing sites in
the embedded code are only reached with in-bounds indices. -/
def dfltSeg : AnalysisSegment := ⟨⟨[], false, false⟩, [], []⟩

/-- Submission analysis (modelled from the spec, section 3). -/
structure SubmissionAnalysis where
  target_bookmark : Str
  segments : List AnalysisSegment
deriving DecidableEq, Repr

/-- An entry of the plan component prs_to_create
(fields as used in src/cli/submit.rs). -/
structure PrToCreate where
  bookmark : Bookmark
  base_branch : Str
  title : Str
  draft : Bool
deriving DecidableEq, Repr

/-- An entry of the plan component prs_to_update_base
(fields as used in src/cli/submit.rs). -/
structure PrBaseUpdate where
  bookmark : Bookmark
  pr : PullRequest
  current_base : Str
  expected_base : Str
deriving DecidableEq, Repr

/-- Submission plan (modelled from the spec, section 3; the `existing_prs`
hash map is embedded as an association list keyed by bookmark name, and the
execution steps as their rendered text). -/
structure SubmissionPlan where
  segments : List AnalysisSegment
  remote : Str
  default_branch : Str
  existing_prs : List (Str × PullRequest)
  bookmarks_needing_push : List Bookmark
  prs_to_create : List PrToCreate
  prs_to_update_base : List PrBaseUpdate
  prs_to_publish : List PullRequest
  execution_steps : List Str
deriving DecidableEq, Repr

/-- Scope of bookmark submission, from src/cli/submit.rs. -/
inductive SubmitScope where
  | Default
  | Upto
  | Only
  | Stack
deriving DecidableEq, Repr

/-- Options for the submit command, from src/cli/submit.rs. -/
structure SubmitOptions where
  dry_run : Bool
  confirm : Bool
  scope : SubmitScope
  upto_bookmark : Option Str
  update_only : Bool
  draft : Bool
  publish : Bool
  select : Bool
deriving DecidableEq, Repr

/-- apply_plan_options from src/cli/submit.rs lines 318-344: post-filters on
the plan for the update-only, draft and publish modifiers, applied in that
order exactly as in the source. -/
def apply_plan_options (plan : SubmissionPlan) (options : SubmitOptions) :
    SubmissionPlan :=
  let plan1 :=
    if options.update_only then
      { plan with
        prs_to_create := [],
        bookmarks_needing_push :=
          plan.bookmarks_needing_push.filter
            (fun b => plan.existing_prs.any (fun kv => kv.1 == b.name)) }
    else plan
  let plan2 :=
    if options.draft then
      { plan1 with
        prs_to_create :=
          plan1.prs_to_create.map (fun p => { p with draft := true }) }
    else plan1
  if options.publish then
    { plan2 with
      prs_to_publish :=
        plan2.prs_to_publish ++
          (plan2.existing_prs.map Prod.snd).filter (fun pr => pr.is_draft) }
  else plan2

end JjRyu

namespace JjRyu

/-- C3: the update-only modifier empties prs_to_create, keeps in
bookmarks_needing_push exactly the bookmarks with an entry in existing_prs,
and leaves every other plan field unchanged (the publish modifier is off,
since it edits prs_to_publish; the draft modifier maps over the already
emptied creation list and is harmless). -/
theorem update_only_filters_plan (plan : SubmissionPlan)
    (options : SubmitOptions)
    (hu : options.update_only = true) (hp : options.publish = false) :
    (apply_plan_options plan options).prs_to_create = [] ∧
    (apply_plan_options plan options).bookmarks_needing_push =
      plan.bookmarks_needing_push.filter
        (fun b => plan.existing_prs.any (fun kv => kv.1 == b.name)) ∧
    (apply_plan_options plan options).segments = plan.segments ∧
    (apply_plan_options plan options).remote = plan.remote ∧
    (apply_plan_options plan options).default_branch = plan.default_branch ∧
    (apply_plan_options plan options).existing_prs = plan.existing_prs ∧
    (apply_plan_options plan options).prs_to_update_base =
      plan.prs_to_update_base ∧
    (apply_plan_options plan options).prs_to_publish = plan.prs_to_publish ∧
    (apply_plan_options plan options).execution_steps = plan.execution_steps := by
  simp only [apply_plan_options, hu, hp, if_true, Bool.false_eq_true, if_false]
  cases hd : options.draft <;> simp

/-- Witness for C3 at a concrete plan: one existing PR on bookmark a, pushes
queued for a and c, one queued PR creation. -/
theorem update_only_filters_plan_witness :
    (let pr : PullRequest := ⟨1, str "u", str "main", str "a", str "t", none, false⟩
     let plan : SubmissionPlan :=
       { segments := [], remote := str "origin", default_branch := str "main",
         existing_prs := [(str "a", pr)],
         bookmarks_needing_push := [⟨str "a", true, false⟩, ⟨str "c", false, false⟩],
         prs_to_create := [⟨⟨str "c", false, false⟩, str "a", str "t", false⟩],
         prs_to_update_base := [], prs_to_publish := [], execution_steps := [] }
     let options : SubmitOptions :=
       ⟨false, false, .Default, none, true, false, false, false⟩
     (apply_plan_options plan options).prs_to_create = [] ∧
     (apply_plan_options plan options).bookmarks_needing_push =
       [⟨str "a", true, false⟩]) := by
  refine ⟨(update_only_filters_plan _ _ rfl rfl).1, ?_⟩
  have h := (update_only_filters_plan
    { segments := [], remote := str "origin", default_branch := str "main",
      existing_prs := [(str "a",
        ⟨1, str "u", str "main", str "a", str "t", none, false⟩)],
      bookmarks_needing_push := [⟨str "a", true, false⟩, ⟨str "c", false, false⟩],
      prs_to_create := [⟨⟨str "c", false, false⟩, str "a", str "t", false⟩],
      prs_to_update_base := [], prs_to_publish := [], execution_steps := [] }
    ⟨false, false, .Default, none, true, false, false, false⟩ rfl rfl).2.1
  rw [h]
  decide

/-- C4: the publish modifier appends to prs_to_publish exactly the existing
PRs whose draft flag is set (in map-iteration order); non-draft existing PRs
are skipped, and without the publish modifier prs_to_publish is unchanged. -/
theorem publish_appends_existing_drafts (plan : SubmissionPlan)
    (options : SubmitOptions) :
    (apply_plan_options plan options).prs_to_publish =
      (if options.publish then
        plan.prs_to_publish ++
          (plan.existing_prs.map Prod.snd).filter (fun pr => pr.is_draft)
      else plan.prs_to_publish) := by
  simp only [apply_plan_options]
  cases hu : options.update_only <;> cases hd : options.draft <;>
    cases hp : options.publish <;> simp

end JjRyu

namespace JjRyu

/-- An Azure DevOps pull-request thread comment, from the response types in
src/platform/azure_devops.rs (commentType 1 is text, 2 is system). -/
structure AzComment where
  id : Nat
  content : Str
  type_id : Nat
deriving DecidableEq, Repr

/-- An Azure DevOps pull-request thread, from src/platform/azure_devops.rs. -/
structure AzThread where
  id : Nat
  comments : List AzComment
deriving DecidableEq, Repr

/-- A flat PR comment as surfaced by the platform capability
(modelled from the spec, section 6). -/
structure PrComment where
  id : Nat
  body : Str
deriving DecidableEq, Repr

/-- The response-processing core of AzureDevOpsService::list_pr_comments
(src/platform/azure_devops.rs lines 346-363): flatten the threads of the
response, keeping only text comments (commentType 1), each mapped to its id
and content. The HTTP transport around it is not modelled. -/
def list_pr_comments (threads : List AzThread) : List PrComment :=
  threads.flatMap (fun thread =>
    thread.comments.filterMap (fun comment =>
      if comment.type_id = 1 then some ⟨comment.id, comment.content⟩
      else none))

/-- Filtering-then-mapping agrees with the filterMap the source uses. -/
theorem filterMap_text_comments (l : List AzComment) :
    l.filterMap (fun comment =>
        if comment.type_id = 1 then
          some (⟨comment.id, comment.content⟩ : PrComment)
        else none) =
      (l.filter (fun c => c.type_id = 1)).map
        (fun c => (⟨c.id, c.content⟩ : PrComment)) := by
  induction l with
  | nil => rfl
  | cons c cs ih =>
    by_cases h : c.type_id = 1 <;>
      simp [List.filterMap_cons, List.filter_cons, h, ih]

/-- C10: list_pr_comments returns exactly the comments of the threads whose
commentType is 1, flattened in thread order and mapped to id and content; in
particular no occurrence of a commentType 2 comment contributes to the
result. -/
theorem list_pr_comments_exactly_text (threads : List AzThread) :
    list_pr_comments threads =
      (((threads.flatMap (fun t => t.comments)).filter
          (fun c => c.type_id = 1)).map
        (fun c => (⟨c.id, c.content⟩ : PrComment))) := by
  induction threads with
  | nil => rfl
  | cons t ts ih =>
    simp only [list_pr_comments, List.flatMap_cons, List.filter_append,
      List.map_append] at ih ⊢
    rw [filterMap_text_comments, ih]

end JjRyu

namespace JjRyu

/-- Rust str::strip_prefix(p).unwrap_or(s): drop a single leading occurrence
of p when present, otherwise return s unchanged. -/
def dropPre (p s : Str) : Str :=
  if p.isPrefixOf s then s.drop p.length else s

/-- Rust str::trim_end_matches(slash): remove every trailing slash. -/
def trimEndSlashes (s : Str) : Str :=
  (s.reverse.dropWhile (fun c => c = '/')).reverse

/-- Decimal rendering of a number, for the embedded format! calls. -/
def natToStr (n : Nat) : Str := Nat.toDigits 10 n

/-- The repository object inside an Azure DevOps pull-request response,
from src/platform/azure_devops.rs. -/
structure AzRepository where
  web_url : Str
deriving DecidableEq, Repr

/-- The wire shape of an Azure DevOps pull request
(src/platform/azure_devops.rs lines 23-35; the unused api url field of the
response is omitted). -/
structure PullRequestResponse where
  pull_request_id : Nat
  source_ref_name : Str
  target_ref_name : Str
  title : Str
  is_draft : Bool
  repository : AzRepository
deriving DecidableEq, Repr

/-- PullRequestResponse::into_pull_request from src/platform/azure_devops.rs
lines 43-72: strip one leading refs/heads/ from the source and target refs
and assemble the html url. -/
def into_pull_request (r : PullRequestResponse) : PullRequest :=
  let source_branch := dropPre (str "refs/heads/") r.source_ref_name
  let target_branch := dropPre (str "refs/heads/") r.target_ref_name
  let html_url := trimEndSlashes r.repository.web_url ++
    str "/pullrequest/" ++ natToStr r.pull_request_id
  { number := r.pull_request_id
    html_url := html_url
    base_ref := target_branch
    head_ref := source_branch
    title := r.title
    node_id := none
    is_draft := r.is_draft }

/-- AzureDevOpsService::branch_ref from src/platform/azure_devops.rs lines
185-191: qualify a branch name unless it is already a full ref. -/
def branch_ref (branch : Str) : Str :=
  if (str "refs/").isPrefixOf branch then branch
  else str "refs/heads/" ++ branch

/-- The response-processing core of AzureDevOpsService::find_existing_pr
(src/platform/azure_devops.rs lines 221-225): the head-branch and open-state
filtering happens server side through the query parameters, and the client
takes the first entry of the returned listing. -/
def find_existing_pr_azure (response_value : List PullRequestResponse) :
    Option PullRequest :=
  response_value.head?.map into_pull_request

/-- The wire shape of an octocrab pull request as read by
pr_from_octocrab in src/platform/github.rs (nested base.ref and head.ref
flattened into one field each). -/
structure OctoPull where
  number : Nat
  html_url : Option Str
  base_ref_field : Str
  head_ref_field : Str
  title : Option Str
  node_id : Option Str
  draft : Option Bool
deriving DecidableEq, Repr

/-- pr_from_octocrab from src/platform/github.rs lines 97-111. -/
def pr_from_octocrab (pr : OctoPull) : PullRequest :=
  { number := pr.number
    html_url := pr.html_url.getD []
    base_ref := pr.base_ref_field
    head_ref := pr.head_ref_field
    title := pr.title.getD []
    node_id := pr.node_id
    is_draft := pr.draft.getD false }

/-- The response-processing core of GitHubService::find_existing_pr
(src/platform/github.rs lines 115-135): the head and open-state filtering is
in the request parameters, and the client takes the first item of the
listing. -/
def find_existing_pr_github (items : List OctoPull) : Option PullRequest :=
  items.head?.map pr_from_octocrab

/-- C6 counterexample: a GitHub listing with two open PRs on the same head,
numbers 7 and 3 in that order. find_existing_pr returns the first listed PR
(number 7): it neither fails with InvalidArgument nor picks the smallest
number (3). -/
theorem find_existing_pr_not_smallest :
    (let a : OctoPull :=
      ⟨7, some (str "u7"), str "main", str "feat", some (str "t7"), none,
        some false⟩
     let b : OctoPull :=
      ⟨3, some (str "u3"), str "main", str "feat", some (str "t3"), none,
        some false⟩
     find_existing_pr_github [a, b] = some (pr_from_octocrab a) ∧
     (pr_from_octocrab a).number = 7 ∧
     (pr_from_octocrab b).number = 3 ∧
     (pr_from_octocrab b).head_ref = (pr_from_octocrab a).head_ref ∧
     (pr_from_octocrab b).number < (pr_from_octocrab a).number) := by
  refine ⟨rfl, rfl, rfl, rfl, by decide⟩

/-- C6 amended: find_existing_pr returns the conversion of the first element
of the platform listing, whatever follows it (and none on an empty listing);
with two or more matches the choice is the platform listing order, with no
failure and no smallest-number tie-break. Holds for the GitHub and the Azure
DevOps implementation. -/
theorem find_existing_pr_first_of_listing (a : OctoPull) (la : List OctoPull)
    (b : PullRequestResponse) (lb : List PullRequestResponse) :
    find_existing_pr_github (a :: la) = some (pr_from_octocrab a) ∧
    find_existing_pr_azure (b :: lb) = some (into_pull_request b) ∧
    find_existing_pr_github [] = none ∧
    find_existing_pr_azure [] = none :=
  ⟨rfl, rfl, rfl, rfl⟩

end JjRyu

namespace JjRyu

/-- C8 counterexample: a response whose source ref has a doubled
refs/heads/ prefix. into_pull_request strips only one occurrence, so the
resulting head_ref still starts with refs/heads/. -/
theorem into_pull_request_doubled_head :
    (let r : PullRequestResponse :=
      ⟨1, str "refs/heads/refs/heads/x", str "refs/heads/main", str "t",
        false, ⟨str "https://h"⟩⟩
     (into_pull_request r).head_ref = str "refs/heads/x" ∧
     (str "refs/heads/").isPrefixOf (into_pull_request r).head_ref = true) := by
  exact ⟨by decide, by decide⟩

/-- A list is a Boolean prefix of itself followed by anything. -/
theorem isPrefixOf_append_self (p t : Str) : p.isPrefixOf (p ++ t) = true := by
  rw [ List.isPrefixOf_iff_prefix]
  exact List.prefix_append p t

/-- dropPre undoes prepending. -/
theorem dropPre_append (p t : Str) : dropPre p (p ++ t) = t := by
  rw [dropPre, if_pos (isPrefixOf_append_self p t)]
  exact List.drop_left p t

/-- Stripping one refs/heads/ leaves the prefix only on doubled input. -/
theorem dropPre_heads_no_heads (s : Str)
    (hs : ¬ (str "refs/heads/refs/heads/").isPrefixOf s = true) :
    ¬ (str "refs/heads/").isPrefixOf (dropPre (str "refs/heads/") s) = true := by
  by_cases h : (str "refs/heads/").isPrefixOf s = true
  · rw [ List.isPrefixOf_iff_prefix] at h
    obtain ⟨rest, rfl⟩ := h
    rw [dropPre_append]
    intro hrest
    apply hs
    rw [ List.isPrefixOf_iff_prefix] at hrest ⊢
    obtain ⟨rest2, rfl⟩ := hrest
    have hsplit : str "refs/heads/" ++ (str "refs/heads/" ++ rest2) =
        str "refs/heads/refs/heads/" ++ rest2 := by
      rw [← List.append_assoc]
      rfl
    rw [hsplit]
    exact List.prefix_append _ _
  · rw [dropPre, if_neg h]
    exact h

/-- C8 (amended): branch_ref keeps a branch starting with refs/ unchanged and
qualifies any other branch with refs/heads/, hence it is idempotent; stripping
one leading refs/heads/ undoes it on branches not starting with refs/; and a
returned head_ref or base_ref starts with refs/heads/ only when the wire ref
carried the prefix doubled. -/
theorem branch_ref_round_trip (b : Str) (r : PullRequestResponse)
    (hb : ¬ (str "refs/").isPrefixOf b = true)
    (hsrc : ¬ (str "refs/heads/refs/heads/").isPrefixOf r.source_ref_name = true)
    (htgt : ¬ (str "refs/heads/refs/heads/").isPrefixOf r.target_ref_name = true) :
    (∀ c : Str, (str "refs/").isPrefixOf c = true → branch_ref c = c) ∧
    branch_ref b = str "refs/heads/" ++ b ∧
    (∀ c : Str, branch_ref (branch_ref c) = branch_ref c) ∧
    dropPre (str "refs/heads/") (branch_ref b) = b ∧
    ¬ (str "refs/heads/").isPrefixOf (into_pull_request r).head_ref = true ∧
    ¬ (str "refs/heads/").isPrefixOf (into_pull_request r).base_ref = true := by
  refine ⟨?_, ?_, ?_, ?_, dropPre_heads_no_heads _ hsrc,
    dropPre_heads_no_heads _ htgt⟩
  · intro c hc
    rw [branch_ref, if_pos hc]
  · rw [branch_ref, if_neg hb]
  · intro c
    by_cases h : (str "refs/").isPrefixOf c = true
    · have hc : branch_ref c = c := by rw [branch_ref, if_pos h]
      rw [hc]
      exact hc
    · have h2 : (str "refs/").isPrefixOf (branch_ref c) = true := by
        rw [branch_ref, if_neg h]
        have : str "refs/heads/" ++ c = str "refs/" ++ (str "heads/" ++ c) := rfl
        rw [this]
        exact isPrefixOf_append_self _ _
      rw [branch_ref, if_pos h2]
  · rw [branch_ref, if_neg hb]
    exact dropPre_append _ _

/-- Error message of the --upto arm of build_analysis. -/
def uptoMissingMsg (upto_bookmark bookmark : Str) : Str :=
  str "Bookmark " ++ [sq] ++ upto_bookmark ++ [sq] ++
    str " not found in stack ancestors of " ++ [sq] ++ bookmark ++ [sq]

/-- Error message of the --only arm of build_analysis. -/
def onlyNoParentPrMsg (parent_bookmark : Str) : Str :=
  str "Cannot use --only: parent bookmark " ++ [sq] ++ parent_bookmark ++
    [sq] ++ str " has no PR. Use --upto instead."

/-- Error message of the --only arm when the target is missing. -/
def onlyTargetMissingMsg (bookmark : Str) : Str :=
  str "Target bookmark " ++ [sq] ++ bookmark ++ [sq] ++
    str " not found in analysis"

/-- build_analysis from src/cli/submit.rs lines 186-273: scope-dependent
transformation of the analysis produced by analyze_submission. The starting
analysis is a parameter (analyze_submission lives in the library crate, whose
source is not part of this tree); the platform lookup is passed as a
function, and for the --stack arm the per-descendant results of
analyze_submission are passed as a list, over which the merge loop of the
source runs (Err entries are skipped like the if-let in the source). -/
def build_analysis (analysis : SubmissionAnalysis) (bookmark : Str)
    (options : SubmitOptions)
    (find_existing_pr : Str → Except Err (Option PullRequest))
    (descendant_analyses : List (Except Err SubmissionAnalysis)) :
    Except Err SubmissionAnalysis :=
  match options.scope with
  | .Default => .ok analysis
  | .Upto =>
    match options.upto_bookmark with
    | none => .error (.Internal (str "--upto requires a bookmark name"))
    | some upto_bookmark =>
      match analysis.segments.findIdx?
          (fun s => s.bookmark.name == upto_bookmark) with
      | some idx =>
        .ok { analysis with
          segments := analysis.segments.take (idx + 1),
          target_bookmark := upto_bookmark }
      | none => .error (.InvalidArgument (uptoMissingMsg upto_bookmark bookmark))
  | .Only =>
    match analysis.segments.findIdx?
        (fun s => s.bookmark.name == bookmark) with
    | none => .error (.Internal (onlyTargetMissingMsg bookmark))
    | some target_idx =>
      let keep : SubmissionAnalysis :=
        { analysis with
          segments := [analysis.segments.getD target_idx dfltSeg] }
      if target_idx = 0 then .ok keep
      else
        let parent_bookmark :=
          (analysis.segments.getD (target_idx - 1) dfltSeg).bookmark.name
        match find_existing_pr parent_bookmark with
        | .error e => .error e
        | .ok none =>
          .error (.InvalidArgument (onlyNoParentPrMsg parent_bookmark))
        | .ok (some _) => .ok keep
  | .Stack =>
    .ok { analysis with
      segments :=
        (descendant_analyses.filterMap Except.toOption).foldl
          (fun segs desc =>
            desc.segments.foldl
              (fun segs2 s =>
                if segs2.any (fun t => t.bookmark.name == s.bookmark.name) then
                  segs2
                else segs2 ++ [s])
              segs)
          analysis.segments }

/-- C1: under scope --only with the target found at index i, the analysis is
reduced to exactly the segment at i; when i is positive the operation first
consults find_existing_pr on the representative bookmark of segment i-1, and
when that lookup returns no PR it fails with InvalidArgument naming the
parent bookmark and suggesting --upto, producing no analysis. -/
theorem build_analysis_only_scope (analysis : SubmissionAnalysis)
    (bookmark : Str) (options : SubmitOptions)
    (find_existing_pr : Str → Except Err (Option PullRequest))
    (descendant_analyses : List (Except Err SubmissionAnalysis)) (i : Nat)
    (hscope : options.scope = .Only)
    (hidx : analysis.segments.findIdx? (fun s => s.bookmark.name == bookmark) =
      some i) :
    (i = 0 →
      build_analysis analysis bookmark options find_existing_pr
          descendant_analyses =
        .ok { analysis with segments := [analysis.segments.getD i dfltSeg] }) ∧
    (0 < i →
      ((∀ pr, find_existing_pr
          ((analysis.segments.getD (i - 1) dfltSeg).bookmark.name) =
            .ok (some pr) →
        build_analysis analysis bookmark options find_existing_pr
            descendant_analyses =
          .ok { analysis with
            segments := [analysis.segments.getD i dfltSeg] }) ∧
       (find_existing_pr
          ((analysis.segments.getD (i - 1) dfltSeg).bookmark.name) =
            .ok none →
        build_analysis analysis bookmark options find_existing_pr
            descendant_analyses =
          .error (.InvalidArgument (onlyNoParentPrMsg
            ((analysis.segments.getD (i - 1) dfltSeg).bookmark.name)))))) := by
  constructor
  · intro hzero
    subst hzero
    simp only [build_analysis, hscope, hidx]
    simp
  · intro hpos
    have hne : ¬ i = 0 := Nat.pos_iff_ne_zero.mp hpos
    constructor
    · intro pr hpr
      simp only [build_analysis, hscope, hidx, hne, if_false, hpr]
    · intro hpr
      simp only [build_analysis, hscope, hidx, hne, if_false, hpr]

/-- Witness for C1: stack a then b, target b at index 1, no PR on a. -/
theorem build_analysis_only_scope_witness :
    (let sa : AnalysisSegment := ⟨⟨str "a", true, true⟩, str "main", str "ta"⟩
     let sb : AnalysisSegment := ⟨⟨str "b", true, false⟩, str "a", str "tb"⟩
     let analysis : SubmissionAnalysis := ⟨str "b", [sa, sb]⟩
     let options : SubmitOptions :=
       ⟨false, false, .Only, none, false, false, false, false⟩
     build_analysis analysis (str "b") options (fun _ => .ok none) [] =
       .error (.InvalidArgument (onlyNoParentPrMsg (str "a")))) := by
  have h := build_analysis_only_scope
    ⟨str "b", [⟨⟨str "a", true, true⟩, str "main", str "ta"⟩,
      ⟨⟨str "b", true, false⟩, str "a", str "tb"⟩]⟩
    (str "b") ⟨false, false, .Only, none, false, false, false, false⟩
    (fun _ => .ok none) [] 1 rfl (by decide)
  exact (h.2 (by decide)).2 rfl

/-- C2: under scope --upto B, when some collected segment carries B as its
representative bookmark (first match at index i) the segment list is
truncated to the first i+1 segments and the target bookmark becomes B;
when no segment carries B the operation fails with InvalidArgument. -/
theorem build_analysis_upto_scope (analysis : SubmissionAnalysis)
    (bookmark upto : Str) (options : SubmitOptions)
    (find_existing_pr : Str → Except Err (Option PullRequest))
    (descendant_analyses : List (Except Err SubmissionAnalysis))
    (hscope : options.scope = .Upto)
    (hupto : options.upto_bookmark = some upto) :
    (∀ i, analysis.segments.findIdx? (fun s => s.bookmark.name == upto) =
        some i →
      build_analysis analysis bookmark options find_existing_pr
          descendant_analyses =
        .ok { target_bookmark := upto,
              segments := analysis.segments.take (i + 1) }) ∧
    (analysis.segments.findIdx? (fun s => s.bookmark.name == upto) = none →
      build_analysis analysis bookmark options find_existing_pr
          descendant_analyses =
        .error (.InvalidArgument (uptoMissingMsg upto bookmark))) := by
  constructor
  · intro i hidx
    simp only [build_analysis, hscope, hupto, hidx]
  · intro hidx
    simp only [build_analysis, hscope, hupto, hidx]

/-- Witness for C2: stack a, b, c with --upto b truncating to a, b. -/
theorem build_analysis_upto_scope_witness :
    (let sa : AnalysisSegment := ⟨⟨str "a", true, true⟩, str "main", str "ta"⟩
     let sb : AnalysisSegment := ⟨⟨str "b", true, false⟩, str "a", str "tb"⟩
     let sc : AnalysisSegment := ⟨⟨str "c", false, false⟩, str "b", str "tc"⟩
     let analysis : SubmissionAnalysis := ⟨str "c", [sa, sb, sc]⟩
     let options : SubmitOptions :=
       ⟨false, false, .Upto, some (str "b"), false, false, false, false⟩
     build_analysis analysis (str "c") options (fun _ => .ok none) [] =
       .ok ⟨str "b", [sa, sb]⟩) := by
  have h := (build_analysis_upto_scope
    ⟨str "c", [⟨⟨str "a", true, true⟩, str "main", str "ta"⟩,
      ⟨⟨str "b", true, false⟩, str "a", str "tb"⟩,
      ⟨⟨str "c", false, false⟩, str "b", str "tc"⟩]⟩
    (str "c") (str "b") ⟨false, false, .Upto, some (str "b"), false, false,
      false, false⟩
    (fun _ => .ok none) [] rfl rfl).1 1 (by decide)
  exact h

/-- Hex digit value of a byte, as in the urlencoding crate: ASCII digits,
then lowercase a-f, then uppercase A-F (value digit - 0x41 + 10, so 0x37
less than the code). -/
def hexVal (b : Nat) : Option Nat :=
  if 48 ≤ b ∧ b ≤ 57 then some (b - 48)
  else if 97 ≤ b ∧ b ≤ 102 then some (b - 87)
  else if 65 ≤ b ∧ b ≤ 70 then some (b - 55)
  else none

/-- UTF-8 encoding of one scalar value, as str::as_bytes presents a char of
the input URL to the decoder. -/
def utf8EncodeChar (c : Char) : List Nat :=
  let v := c.toNat
  if v < 128 then [v]
  else if v < 2048 then [192 + v / 64, 128 + v % 64]
  else if v < 65536 then
    [224 + v / 4096, 128 + v / 64 % 64, 128 + v % 64]
  else
    [240 + v / 262144, 128 + v / 4096 % 64, 128 + v / 64 % 64, 128 + v % 64]

/-- The UTF-8 byte sequence of a string (str::as_bytes). -/
def utf8Bytes (s : Str) : List Nat := s.flatMap utf8EncodeChar

/-- decode_binary of the urlencoding crate, on bytes: a percent followed by
two hex digits becomes the encoded byte; after a percent with an invalid
escape the percent is emitted and scanning resumes at the following byte. -/
def percentDecodeBytes : List Nat → List Nat
  | [] => []
  | 37 :: h1 :: h2 :: rest2 =>
    match hexVal h1, hexVal h2 with
    | some a, some b => (16 * a + b) :: percentDecodeBytes rest2
    | _, _ => 37 :: percentDecodeBytes (h1 :: h2 :: rest2)
  | 37 :: rest => 37 :: percentDecodeBytes rest
  | b :: rest => b :: percentDecodeBytes rest

/-- Strict UTF-8 decoding, as String::from_utf8 revalidates the decoded
bytes: rejects stray continuation bytes, overlong encodings (lead bytes
0xC0/0xC1, and the short second-byte ranges after 0xE0 and 0xF0),
surrogate scalar values (0xED with a second byte at 0xA0 or above) and
values past U+10FFFF (lead bytes 0xF5 and up, and 0xF4 with a second byte
at 0x90 or above). -/
def utf8Decode : List Nat → Option Str
  | [] => some []
  | b :: rest =>
    if b < 128 then (utf8Decode rest).map (fun t => Char.ofNat b :: t)
    else if b < 194 then none
    else if b < 224 then
      match rest with
      | b2 :: rest2 =>
        if 128 ≤ b2 ∧ b2 < 192 then
          (utf8Decode rest2).map
            (fun t => Char.ofNat ((b - 192) * 64 + (b2 - 128)) :: t)
        else none
      | [] => none
    else if b < 240 then
      match rest with
      | b2 :: b3 :: rest2 =>
        if (128 ≤ b2 ∧ b2 < 192) ∧ (128 ≤ b3 ∧ b3 < 192) ∧
            (b ≠ 224 ∨ 160 ≤ b2) ∧ (b ≠ 237 ∨ b2 < 160) then
          (utf8Decode rest2).map
            (fun t => Char.ofNat
              ((b - 224) * 4096 + (b2 - 128) * 64 + (b3 - 128)) :: t)
        else none
      | _ => none
    else if b < 245 then
      match rest with
      | b2 :: b3 :: b4 :: rest2 =>
        if (128 ≤ b2 ∧ b2 < 192) ∧ (128 ≤ b3 ∧ b3 < 192) ∧
            (128 ≤ b4 ∧ b4 < 192) ∧
            (b ≠ 240 ∨ 144 ≤ b2) ∧ (b ≠ 244 ∨ b2 < 144) then
          (utf8Decode rest2).map
            (fun t => Char.ofNat ((b - 240) * 262144 + (b2 - 128) * 4096 +
              (b3 - 128) * 64 + (b4 - 128)) :: t)
        else none
      | _ => none
    else none

/-- urlencoding::decode: percent-decode the UTF-8 bytes of the input and
revalidate the result as UTF-8; none is the FromUtf8Error case of the
crate Result, which the caller in detection.rs maps to Error::Parse. -/
def percentDecode (s : Str) : Option Str :=
  utf8Decode (percentDecodeBytes (utf8Bytes s))

/-- Literal-prefix matcher: the remainder after p, when p leads l. -/
def matchPre (p l : Str) : Option Str :=
  if p.isPrefixOf l then some (l.drop p.length) else none

/-- One segment of a regex of the form ([^/]+)/ at the current position:
the non-empty run up to the first slash, plus the remainder past it. -/
def takeSeg (l : Str) : Option (Str × Str) :=
  let seg := l.takeWhile (fun c => c != '/')
  match l.drop seg.length with
  | '/' :: rest => if seg.isEmpty then none else some (seg, rest)
  | _ => none

/-- The effect of the regex tail (.+?)(?:\x2Egit)?$ on the rest of the
subject: the lazy group excludes one literal trailing .git when the rest is
long enough to leave the group non-empty. -/
def stripGitSuffix (s : Str) : Str :=
  if 4 < s.length ∧ (str ".git").isSuffixOf s then s.take (s.length - 4) else s

/-- Leftmost-match search: regex is_match and captures are unanchored, so
the position-matcher f is tried at every suffix, leftmost first. -/
def scanFor (f : Str → Option α) : Str → Option α
  | [] => f []
  | c :: rest =>
    match f (c :: rest) with
    | some r => some r
    | none => scanFor f rest

/-- The scheme part https?:// of the https regexes, at one position. -/
def schemeSplit (l : Str) : Option Str :=
  match matchPre (str "https://") l with
  | some rest => some rest
  | none => matchPre (str "http://") l

/-- The literal head of RE_AZURE_SSH (src/platform/detection.rs line 19). -/
def azureSshNeedle : Str := str "git@ssh.dev.azure.com:v3/"

/-- RE_AZURE_SSH at one position:
git@ssh\x2Edev\x2Eazure\x2Ecom:v3/([^/]+)/([^/]+)/(.+?)(?:\x2Egit)?$ -/
def azureSshAt (l : Str) : Option (Str × Str × Str) :=
  match matchPre azureSshNeedle l with
  | none => none
  | some rest =>
    match takeSeg rest with
    | none => none
    | some (org, rest1) =>
      match takeSeg rest1 with
      | none => none
      | some (proj, rest2) =>
        if rest2.isEmpty then none
        else some (org, proj, stripGitSuffix rest2)

/-- The host-and-path tail of RE_AZURE_HTTPS after the optional user part:
dev\x2Eazure\x2Ecom/([^/]+)/([^/]+)/_git/(.+?)(?:\x2Egit)?$ -/
def azureHostTail (rest : Str) : Option (Str × Str × Str) :=
  match matchPre (str "dev.azure.com/") rest with
  | none => none
  | some rest1 =>
    match takeSeg rest1 with
    | none => none
    | some (org, rest2) =>
      match takeSeg rest2 with
      | none => none
      | some (proj, rest3) =>
        match matchPre (str "_git/") rest3 with
        | none => none
        | some repoRaw =>
          if repoRaw.isEmpty then none
          else some (org, proj, stripGitSuffix repoRaw)

/-- RE_AZURE_HTTPS at one position (src/platform/detection.rs line 24):
https?://(?:[^@]+@)?dev\x2Eazure\x2Ecom/([^/]+)/([^/]+)/_git/(.+?)(?:\x2Egit)?$
The greedy optional user group can only consume up to the first at sign;
like the backtracking engine, the userless alternative is tried when the
user-consuming parse fails. -/
def azureHttpsAt (l : Str) : Option (Str × Str × Str) :=
  match schemeSplit l with
  | none => none
  | some rest =>
    let user := rest.takeWhile (fun c => c != '@')
    let withUser :=
      if user.isEmpty ∨ user.length = rest.length then none
      else azureHostTail (rest.drop (user.length + 1))
    match withUser with
    | some r => some r
    | none => azureHostTail rest

/-- RE_AZURE_SSH unanchored match with captures. -/
def azureSshFind (l : Str) : Option (Str × Str × Str) := scanFor azureSshAt l

/-- RE_AZURE_HTTPS unanchored match with captures. -/
def azureHttpsFind (l : Str) : Option (Str × Str × Str) :=
  scanFor azureHttpsAt l

/-- RE_SSH at one position (src/platform/detection.rs line 11):
git@[^:]+:(.+?)(?:\x2Egit)?$ capturing the path. -/
def sshPathAt (l : Str) : Option Str :=
  match matchPre (str "git@") l with
  | none => none
  | some rest =>
    let host := rest.takeWhile (fun c => c != ':')
    if host.isEmpty then none
    else
      match rest.drop host.length with
      | ':' :: path => if path.isEmpty then none else some (stripGitSuffix path)
      | _ => none

/-- RE_HTTPS at one position (src/platform/detection.rs line 15):
https?://[^/]+/(.+?)(?:\x2Egit)?$ capturing the path. -/
def httpsPathAt (l : Str) : Option Str :=
  match schemeSplit l with
  | none => none
  | some rest =>
    let host := rest.takeWhile (fun c => c != '/')
    if host.isEmpty then none
    else
      match rest.drop host.length with
      | '/' :: path => if path.isEmpty then none else some (stripGitSuffix path)
      | _ => none

/-- RE_SSH unanchored capture. -/
def sshPathFind (l : Str) : Option Str := scanFor sshPathAt l

/-- RE_HTTPS unanchored capture. -/
def httpsPathFind (l : Str) : Option Str := scanFor httpsPathAt l

/-- The host-override environment variables read by detect_platform
(GH_HOST, GITLAB_HOST, AZURE_DEVOPS_HOST). -/
structure HostEnv where
  gh_host : Option Str
  gitlab_host : Option Str
  azure_host : Option Str

/-- The empty environment: no host overrides set. -/
def noEnv : HostEnv := ⟨none, none, none⟩

/-- extract_hostname from src/platform/detection.rs lines 163-176. The
https arm embeds url::Url::parse host extraction for http(s) URLs: the
authority runs to the first slash, the host is what follows the last at
sign and precedes the port colon, lowercased (other schemes and the rarer
URL forms the url crate accepts are outside the remote-URL grammar and not
modelled). -/
def extract_hostname (url : Str) : Option Str :=
  if (str "git@").isPrefixOf url then
    some ((url.drop 4).takeWhile (fun c => c != ':'))
  else
    match schemeSplit url with
    | none => none
    | some rest =>
      let auth := rest.takeWhile (fun c => c != '/')
      let afterUser := (auth.splitOn '@').getLastD []
      let host := afterUser.takeWhile (fun c => c != ':')
      if host.isEmpty then none else some (host.map Char.toLower)

/-- The hostname cascade of detect_platform (src/platform/detection.rs
lines 40-63): Azure DevOps hostnames first, then GitHub (exact host,
.github.com subdomain, or the GH_HOST override), then GitLab likewise. -/
def hostCheck (env : HostEnv) (hostname : Str) : Option Platform :=
  if hostname = str "dev.azure.com" ∨ hostname = str "ssh.dev.azure.com" ∨
      env.azure_host = some hostname then
    some .AzureDevOps
  else if hostname = str "github.com" ∨
      (str ".github.com").isSuffixOf hostname ∨
      env.gh_host = some hostname then
    some .GitHub
  else if hostname = str "gitlab.com" ∨
      (str ".gitlab.com").isSuffixOf hostname ∨
      env.gitlab_host = some hostname then
    some .GitLab
  else none

/-- detect_platform from src/platform/detection.rs lines 27-64. -/
def detect_platform (env : HostEnv) (url : Str) : Option Platform :=
  if (azureSshFind url).isSome ∨ (azureHttpsFind url).isSome then
    some .AzureDevOps
  else
    match extract_hostname url with
    | none => none
    | some hostname => hostCheck env hostname

/-- parse_azure_devops_url from src/platform/detection.rs lines 123-161:
SSH shape first, then HTTPS; each captured segment is percent-decoded in
source order (org, project, repo), a decoding failure is mapped to
Error::Parse (the display of the FromUtf8Error appended to the source
message is elided here), and the owner is org/project. -/
def parse_azure_devops_url (url : Str) : Except Err PlatformConfig :=
  match azureSshFind url with
  | some (org, proj, repo) =>
    match percentDecode org with
    | none => .error (.Parse (str "invalid URL encoding in org"))
    | some dorg =>
      match percentDecode proj with
      | none => .error (.Parse (str "invalid URL encoding in project"))
      | some dproj =>
        match percentDecode repo with
        | none => .error (.Parse (str "invalid URL encoding in repo"))
        | some drepo =>
          .ok ⟨.AzureDevOps, dorg ++ str "/" ++ dproj, drepo, none⟩
  | none =>
    match azureHttpsFind url with
    | some (org, proj, repo) =>
      match percentDecode org with
      | none => .error (.Parse (str "invalid URL encoding in org"))
      | some dorg =>
        match percentDecode proj with
        | none => .error (.Parse (str "invalid URL encoding in project"))
        | some dproj =>
          match percentDecode repo with
          | none => .error (.Parse (str "invalid URL encoding in repo"))
          | some drepo =>
            .ok ⟨.AzureDevOps, dorg ++ str "/" ++ dproj, drepo, none⟩
    | none =>
      .error (.Parse (str "cannot parse Azure DevOps URL: " ++ url))

/-- The self-hosted host determination of parse_repo_info
(src/platform/detection.rs lines 97-113): the hostname is reported when it
differs from the canonical host of the platform. -/
def self_hosted_host (platform : Platform) (hostname : Option Str) :
    Option Str :=
  match platform with
  | .GitHub =>
    match hostname with
    | some h => if h ≠ str "github.com" then some h else none
    | none => none
  | .GitLab =>
    match hostname with
    | some h => if h ≠ str "gitlab.com" then some h else none
    | none => none
  | .AzureDevOps => none

/-- The body of parse_repo_info after the trailing-slash trim
(src/platform/detection.rs lines 71-121). -/
def parse_repo_core (env : HostEnv) (url : Str) : Except Err PlatformConfig :=
  match detect_platform env url with
  | none => .error .NoSupportedRemotes
  | some .AzureDevOps => parse_azure_devops_url url
  | some p =>
    let hostname := extract_hostname url
    match (sshPathFind url).orElse (fun _ => httpsPathFind url) with
    | none => .error (.Parse (str "cannot parse remote URL: " ++ url))
    | some path =>
      let parts := path.splitOn '/'
      if parts.length < 2 then
        .error (.Parse (str "invalid repo path: " ++ path))
      else
        let repo := parts.getLastD []
        let owner := (str "/").intercalate parts.dropLast
        .ok ⟨p, owner, repo, self_hosted_host p hostname⟩

/-- parse_repo_info from src/platform/detection.rs lines 67-121: trim
trailing slashes, then detect and parse. -/
def parse_repo_info (env : HostEnv) (url : Str) : Except Err PlatformConfig :=
  parse_repo_core env (trimEndSlashes url)

/-- matchPre after prepending its pattern. -/
theorem matchPre_append (p t : Str) : matchPre p (p ++ t) = some t := by
  rw [matchPre, if_pos (isPrefixOf_append_self p t), List.drop_left]

/-- A successful matchPre decomposes its subject. -/
theorem matchPre_eq_some (p l r : Str) (h : matchPre p l = some r) :
    l = p ++ r := by
  rw [matchPre] at h
  by_cases hp : p.isPrefixOf l = true
  · rw [if_pos hp] at h
    rw [ List.isPrefixOf_iff_prefix] at hp
    obtain ⟨t, rfl⟩ := hp
    rw [List.drop_left] at h
    rw [Option.some_inj.mp h]
  · rw [if_neg hp] at h
    exact Option.noConfusion h

/-- A position match at the head of the subject is the leftmost match. -/
theorem scanFor_head {α : Type} (f : Str → Option α) (l : Str) (r : α)
    (h : f l = some r) : scanFor f l = some r := by
  cases l with
  | nil => exact h
  | cons c rest => rw [scanFor, h]

/-- Any leftmost match is a position match at some suffix. -/
theorem scanFor_eq_some {α : Type} (f : Str → Option α) (l : Str) (r : α)
    (h : scanFor f l = some r) : ∃ s, s <:+ l ∧ f s = some r := by
  induction l with
  | nil => exact ⟨[], List.suffix_refl [], h⟩
  | cons c rest ih =>
    rw [scanFor] at h
    cases hc : f (c :: rest) with
    | some r2 =>
      rw [hc] at h
      exact ⟨c :: rest, List.suffix_refl _, hc.trans h⟩
    | none =>
      rw [hc] at h
      obtain ⟨s, hs, hf⟩ := ih h
      exact ⟨s, hs.trans (List.suffix_cons c rest), hf⟩

/-- takeWhile for inequality with a char stops exactly at that char. -/
theorem takeWhile_ne_append (ch : Char) (a b : Str) (ha : ch ∉ a) :
    (a ++ ch :: b).takeWhile (fun c => c != ch) = a := by
  induction a with
  | nil => simp [List.takeWhile_cons]
  | cons x a2 ih =>
    have hx : x ≠ ch := fun hx => ha (hx ▸ List.mem_cons_self x a2)
    have ha2 : ch ∉ a2 := fun h2 => ha (List.mem_cons_of_mem x h2)
    simp only [List.cons_append, List.takeWhile_cons, bne_iff_ne, ne_eq, hx,
      not_false_eq_true, ite_true, ih ha2]

/-- takeWhile keeps everything when the stop char is absent. -/
theorem takeWhile_ne_all (ch : Char) (a : Str) (ha : ch ∉ a) :
    a.takeWhile (fun c => c != ch) = a := by
  induction a with
  | nil => rfl
  | cons x a2 ih =>
    have hx : x ≠ ch := fun hx => ha (hx ▸ List.mem_cons_self x a2)
    have ha2 : ch ∉ a2 := fun h2 => ha (List.mem_cons_of_mem x h2)
    simp only [List.takeWhile_cons, bne_iff_ne, ne_eq, hx, not_false_eq_true,
      ite_true, ih ha2]

/-- takeSeg on a slash-separated head segment. -/
theorem takeSeg_append (a b : Str) (ha : '/' ∉ a) (hne : a ≠ []) :
    takeSeg (a ++ '/' :: b) = some (a, b) := by
  rw [takeSeg]
  simp only [takeWhile_ne_append '/' a b ha]
  rw [List.drop_left]
  simp [hne]

/-- Appending .git always strips back to the original non-empty rest. -/
theorem stripGit_append (s : Str) (h : s ≠ []) :
    stripGitSuffix (s ++ str ".git") = s := by
  rw [stripGitSuffix, if_pos]
  · rw [List.length_append]
    have : s.length + (str ".git").length - 4 = s.length := by
      simp [str]
    rw [this, List.take_left]
  · constructor
    · rw [List.length_append]
      have hs : 0 < s.length := List.length_pos.mpr h
      have h4 : (str ".git").length = 4 := rfl
      omega
    · rw [List.isSuffixOf_iff_suffix]
      exact List.suffix_append s (str ".git")

/-- Without a .git suffix nothing is stripped. -/
theorem stripGit_id (s : Str) (h : ¬ (str ".git").isSuffixOf s = true) :
    stripGitSuffix s = s := by
  rw [stripGitSuffix, if_neg]
  intro hc
  exact h hc.2

/-- A prefix avoiding a char stays within the part before that char. -/
theorem pre_of_append_char (p x y : Str) (ch : Char) (hp : ch ∉ p)
    (h : p <+: (x ++ ch :: y)) : p <+: x := by
  rcases le_or_lt p.length x.length with hle | hlt
  · exact List.prefix_of_prefix_length_le h (List.prefix_append x (ch :: y)) hle
  · exfalso
    apply hp
    obtain ⟨t, ht⟩ := h
    have htake : (x ++ ch :: y).take p.length = p := by
      rw [← ht, List.take_left]
    rw [List.take_append_eq_append_take] at htake
    have hpos : p.length - x.length ≠ 0 := by omega
    obtain ⟨k, hk⟩ := Nat.exists_eq_succ_of_ne_zero hpos
    rw [hk, List.take_succ_cons] at htake
    rw [← htake]
    exact List.mem_append_right _ (List.mem_cons_self _ _)

/-- The suffix .git is absent from a path whose final slash-free segment lacks it. -/
theorem not_git_suffix_append (a rep : Str)
    (hr : ¬ (str ".git").isSuffixOf rep = true) :
    ¬ (str ".git").isSuffixOf (a ++ '/' :: rep) = true := by
  intro h
  rw [List.isSuffixOf_iff_suffix] at h
  have hrev : (str ".git").reverse <+: (a ++ '/' :: rep).reverse :=
    List.reverse_prefix.mpr h
  have hshape : (a ++ '/' :: rep).reverse = rep.reverse ++ '/' :: a.reverse := by
    rw [List.reverse_append, List.reverse_cons, List.append_assoc]
    rfl
  rw [hshape] at hrev
  have hpx := pre_of_append_char _ _ _ '/' (by decide) hrev
  apply hr
  rw [List.isSuffixOf_iff_suffix]
  exact List.reverse_prefix.mp hpx

/-- Splitting a list at a char that its spec side contains once is unique. -/
theorem append_char_eq (ch : Char) :
    ∀ (a b c d : Str), a ++ ch :: b = c ++ ch :: d → ch ∉ c → ch ∉ d →
      a = c ∧ b = d := by
  intro a b c d h hc hd
  induction c generalizing a with
  | nil =>
    cases a with
    | nil =>
      simp only [List.nil_append, List.cons.injEq] at h
      exact ⟨rfl, h.2⟩
    | cons x a2 =>
      simp only [List.cons_append, List.nil_append, List.cons.injEq] at h
      exfalso
      apply hd
      rw [← h.2]
      exact List.mem_append_right a2 (List.mem_cons_self ch b)
  | cons y c2 ih =>
    cases a with
    | nil =>
      simp only [List.nil_append, List.cons_append, List.cons.injEq] at h
      exact absurd (h.1 ▸ List.mem_cons_self y c2) hc
    | cons x a2 =>
      simp only [List.cons_append, List.cons.injEq] at h
      have hc2 : ch ∉ c2 := fun h2 => hc (List.mem_cons_of_mem y h2)
      obtain ⟨h1, h2⟩ := ih a2 h.2 hc2
      exact ⟨by rw [h.1, h1], h2⟩

/-- An infix containing the unique char of its host aligns at that char. -/
theorem infix_char_aligned (ch : Char) (n1 n2 c d : Str)
    (hinf : (n1 ++ ch :: n2) <:+: (c ++ ch :: d))
    (hc : ch ∉ c) (hd : ch ∉ d) : ∃ t, d = n2 ++ t := by
  obtain ⟨s, t, hst⟩ := hinf
  have hre : (s ++ n1) ++ ch :: (n2 ++ t) = c ++ ch :: d := by
    rw [← hst]
    simp [List.append_assoc]
  obtain ⟨_, h2⟩ := append_char_eq ch _ _ _ _ hre hc hd
  exact ⟨t, h2.symm⟩

/-- A suffix containing the unique char of its host aligns at that char. -/
theorem suffix_char_aligned (ch : Char) (p s2 c d : Str)
    (hsuf : (p ++ ch :: s2) <:+ (c ++ ch :: d))
    (hc : ch ∉ c) (hd : ch ∉ d) : (∃ w, w ++ p = c) ∧ s2 = d := by
  obtain ⟨w, hw⟩ := hsuf
  have hre : (w ++ p) ++ ch :: s2 = c ++ ch :: d := by
    rw [← hw]
    simp [List.append_assoc]
  obtain ⟨h1, h2⟩ := append_char_eq ch _ _ _ _ hre hc hd
  exact ⟨⟨w, h1⟩, h2⟩

/-- A needle containing a char the haystack lacks occurs nowhere in it. -/
theorem not_infix_of_mem_not_mem (n l : Str) (ch : Char) (hn : ch ∈ n)
    (hl : ch ∉ l) : ¬ n <:+: l :=
  fun h => hl (h.subset hn)

/-- Dropping past a separator char reaches the tail. -/
theorem drop_append_cons (a b : Str) (x : Char) :
    (a ++ x :: b).drop (a.length + 1) = b := by
  have h1 : a ++ x :: b = (a ++ [x]) ++ b := by simp
  have h2 : a.length + 1 = (a ++ [x]).length := by simp
  rw [h1, h2, List.drop_left]

/-- azureSshAt on a well-formed Azure SSH remainder. -/
theorem azureSshAt_construct (org proj rest2 : Str)
    (ho : '/' ∉ org) (hone : org ≠ []) (hp : '/' ∉ proj) (hpne : proj ≠ [])
    (hr : rest2 ≠ []) :
    azureSshAt (azureSshNeedle ++ (org ++ '/' :: (proj ++ '/' :: rest2))) =
      some (org, proj, stripGitSuffix rest2) := by
  simp only [azureSshAt, matchPre_append, takeSeg_append org _ ho hone,
    takeSeg_append proj _ hp hpne]
  simp [hr]

/-- azureHostTail on a well-formed Azure HTTPS host-and-path remainder. -/
theorem azureHostTail_construct (org proj repoRaw : Str)
    (ho : '/' ∉ org) (hone : org ≠ []) (hp : '/' ∉ proj) (hpne : proj ≠ [])
    (hr : repoRaw ≠ []) :
    azureHostTail (str "dev.azure.com/" ++
        (org ++ '/' :: (proj ++ '/' :: (str "_git/" ++ repoRaw)))) =
      some (org, proj, stripGitSuffix repoRaw) := by
  simp only [azureHostTail, matchPre_append, takeSeg_append org _ ho hone,
    takeSeg_append proj _ hp hpne]
  simp [hr]

/-- azureHttpsAt reduces to the host tail when no user part is present. -/
theorem azureHttpsAt_nouser (rest : Str) (h : '@' ∉ rest) :
    azureHttpsAt (str "https://" ++ rest) = azureHostTail rest := by
  rw [azureHttpsAt]
  have hs : schemeSplit (str "https://" ++ rest) = some rest := by
    rw [schemeSplit, matchPre_append]
  rw [hs]
  simp only [takeWhile_ne_all '@' rest h]
  simp

/-- azureHttpsAt consumes a user part up to the first at sign. -/
theorem azureHttpsAt_user (user rest : Str) (r : Str × Str × Str)
    (hu : '@' ∉ user) (hune : user ≠ []) (h : azureHostTail rest = some r) :
    azureHttpsAt (str "https://" ++ (user ++ '@' :: rest)) = some r := by
  rw [azureHttpsAt]
  have hs : schemeSplit (str "https://" ++ (user ++ '@' :: rest)) =
      some (user ++ '@' :: rest) := by
    rw [schemeSplit, matchPre_append]
  rw [hs]
  simp only [takeWhile_ne_append '@' user rest hu]
  have hlen : ¬ (user.isEmpty = true ∨
      user.length = (user ++ '@' :: rest).length) := by
    push_neg
    constructor
    · cases user with
      | nil => exact absurd rfl hune
      | cons a t => simp
    · simp only [List.length_append, List.length_cons]
      omega
  rw [if_neg hlen, drop_append_cons, h]

/-- sshPathAt on a well-formed SSH remote. -/
theorem sshPathAt_construct (host path : Str) (hh : ':' ∉ host)
    (hhne : host ≠ []) (hpne : path ≠ []) :
    sshPathAt (str "git@" ++ (host ++ ':' :: path)) =
      some (stripGitSuffix path) := by
  rw [sshPathAt, matchPre_append]
  simp only [takeWhile_ne_append ':' host path hh, List.drop_left]
  have h1 : host.isEmpty = false := by
    cases host with
    | nil => exact absurd rfl hhne
    | cons a t => rfl
  have h2 : path.isEmpty = false := by
    cases path with
    | nil => exact absurd rfl hpne
    | cons a t => rfl
  simp [h1, h2]

/-- httpsPathAt on a well-formed HTTPS remote. -/
theorem httpsPathAt_construct (host path : Str) (hh : '/' ∉ host)
    (hhne : host ≠ []) (hpne : path ≠ []) :
    httpsPathAt (str "https://" ++ (host ++ '/' :: path)) =
      some (stripGitSuffix path) := by
  rw [httpsPathAt]
  have hs : schemeSplit (str "https://" ++ (host ++ '/' :: path)) =
      some (host ++ '/' :: path) := by
    rw [schemeSplit, matchPre_append]
  rw [hs]
  simp only [takeWhile_ne_append '/' host path hh, List.drop_left]
  have h1 : host.isEmpty = false := by
    cases host with
    | nil => exact absurd rfl hhne
    | cons a t => rfl
  have h2 : path.isEmpty = false := by
    cases path with
    | nil => exact absurd rfl hpne
    | cons a t => rfl
  simp [h1, h2]

/-- A successful azureSshAt starts with the SSH needle. -/
theorem azureSshAt_needle (s : Str) (r : Str × Str × Str)
    (h : azureSshAt s = some r) : ∃ t, s = azureSshNeedle ++ t := by
  rw [azureSshAt] at h
  cases hm : matchPre azureSshNeedle s with
  | none => rw [hm] at h; exact Option.noConfusion h
  | some rest => exact ⟨rest, matchPre_eq_some _ _ _ hm⟩

/-- A successful sshPathAt starts with git@. -/
theorem sshPathAt_needle (s : Str) (r : Str)
    (h : sshPathAt s = some r) : ∃ t, s = str "git@" ++ t := by
  rw [sshPathAt] at h
  cases hm : matchPre (str "git@") s with
  | none => rw [hm] at h; exact Option.noConfusion h
  | some rest => exact ⟨rest, matchPre_eq_some _ _ _ hm⟩

/-- A successful schemeSplit starts with a scheme. -/
theorem schemeSplit_shape (s rest : Str) (h : schemeSplit s = some rest) :
    s = str "https://" ++ rest ∨ s = str "http://" ++ rest := by
  rw [schemeSplit] at h
  cases hm : matchPre (str "https://") s with
  | some r1 =>
    rw [hm] at h
    exact Or.inl (Option.some_inj.mp h ▸ matchPre_eq_some _ _ _ hm)
  | none =>
    rw [hm] at h
    exact Or.inr (matchPre_eq_some _ _ _ h)

/-- A successful azureHttpsAt starts with a scheme. -/
theorem azureHttpsAt_scheme (s : Str) (r : Str × Str × Str)
    (h : azureHttpsAt s = some r) :
    (∃ s2, s = str "https://" ++ s2) ∨ (∃ s2, s = str "http://" ++ s2) := by
  rw [azureHttpsAt] at h
  cases hm : schemeSplit s with
  | none => rw [hm] at h; exact Option.noConfusion h
  | some rest =>
    rcases schemeSplit_shape s rest hm with h1 | h2
    · exact Or.inl ⟨rest, h1⟩
    · exact Or.inr ⟨rest, h2⟩

/-- A successful httpsPathAt starts with a scheme. -/
theorem httpsPathAt_scheme (s : Str) (r : Str)
    (h : httpsPathAt s = some r) :
    (∃ s2, s = str "https://" ++ s2) ∨ (∃ s2, s = str "http://" ++ s2) := by
  rw [httpsPathAt] at h
  cases hm : schemeSplit s with
  | none => rw [hm] at h; exact Option.noConfusion h
  | some rest =>
    rcases schemeSplit_shape s rest hm with h1 | h2
    · exact Or.inl ⟨rest, h1⟩
    · exact Or.inr ⟨rest, h2⟩

/-- No Azure SSH match without the needle occurring in the subject. -/
theorem azureSshFind_eq_none (l : Str) (h : ¬ azureSshNeedle <:+: l) :
    azureSshFind l = none := by
  cases hf : azureSshFind l with
  | none => rfl
  | some r =>
    exfalso
    obtain ⟨s, hsuf, hat⟩ := scanFor_eq_some _ _ _ hf
    obtain ⟨t, rfl⟩ := azureSshAt_needle _ _ hat
    exact h (List.infix_iff_prefix_suffix.mpr
      ⟨azureSshNeedle ++ t, List.prefix_append _ _, hsuf⟩)

/-- No generic SSH match without git@ occurring in the subject. -/
theorem sshPathFind_eq_none (l : Str) (h : ¬ (str "git@") <:+: l) :
    sshPathFind l = none := by
  cases hf : sshPathFind l with
  | none => rfl
  | some r =>
    exfalso
    obtain ⟨s, hsuf, hat⟩ := scanFor_eq_some _ _ _ hf
    obtain ⟨t, rfl⟩ := sshPathAt_needle _ _ hat
    exact h (List.infix_iff_prefix_suffix.mpr
      ⟨str "git@" ++ t, List.prefix_append _ _, hsuf⟩)

/-- No Azure HTTPS match in a host whose single colon pins every scheme
candidate: the only viable positions are aligned at that colon, and the
hypotheses rule each of them out. -/
theorem azureHttpsFind_eq_none (c d : Str) (hc : ':' ∉ c) (hd : ':' ∉ d)
    (hS : ∀ w s2, w ++ str "https" = c → str "//" ++ s2 = d →
      azureHttpsAt (str "https://" ++ s2) = none)
    (hH : ∀ w s2, w ++ str "http" = c → str "//" ++ s2 = d →
      azureHttpsAt (str "http://" ++ s2) = none) :
    azureHttpsFind (c ++ ':' :: d) = none := by
  cases hf : azureHttpsFind (c ++ ':' :: d) with
  | none => rfl
  | some r =>
    exfalso
    obtain ⟨s, hsuf, hat⟩ := scanFor_eq_some _ _ _ hf
    rcases azureHttpsAt_scheme _ _ hat with ⟨s2, rfl⟩ | ⟨s2, rfl⟩
    · have hdec : str "https://" ++ s2 =
          str "https" ++ ':' :: (str "//" ++ s2) := rfl
      rw [hdec] at hsuf hat
      obtain ⟨⟨w, hw⟩, hs2d⟩ := suffix_char_aligned ':' (str "https")
        (str "//" ++ s2) c d hsuf hc hd
      have hnone := hS w s2 hw hs2d
      rw [hdec] at hnone
      rw [hnone] at hat
      exact Option.noConfusion hat
    · have hdec : str "http://" ++ s2 =
          str "http" ++ ':' :: (str "//" ++ s2) := rfl
      rw [hdec] at hsuf hat
      obtain ⟨⟨w, hw⟩, hs2d⟩ := suffix_char_aligned ':' (str "http")
        (str "//" ++ s2) c d hsuf hc hd
      have hnone := hH w s2 hw hs2d
      rw [hdec] at hnone
      rw [hnone] at hat
      exact Option.noConfusion hat

/-- Likewise for the generic HTTPS path capture. -/
theorem httpsPathFind_eq_none (c d : Str) (hc : ':' ∉ c) (hd : ':' ∉ d)
    (hS : ∀ w s2, w ++ str "https" = c → str "//" ++ s2 = d →
      httpsPathAt (str "https://" ++ s2) = none)
    (hH : ∀ w s2, w ++ str "http" = c → str "//" ++ s2 = d →
      httpsPathAt (str "http://" ++ s2) = none) :
    httpsPathFind (c ++ ':' :: d) = none := by
  cases hf : httpsPathFind (c ++ ':' :: d) with
  | none => rfl
  | some r =>
    exfalso
    obtain ⟨s, hsuf, hat⟩ := scanFor_eq_some _ _ _ hf
    rcases httpsPathAt_scheme _ _ hat with ⟨s2, rfl⟩ | ⟨s2, rfl⟩
    · have hdec : str "https://" ++ s2 =
          str "https" ++ ':' :: (str "//" ++ s2) := rfl
      rw [hdec] at hsuf hat
      obtain ⟨⟨w, hw⟩, hs2d⟩ := suffix_char_aligned ':' (str "https")
        (str "//" ++ s2) c d hsuf hc hd
      have hnone := hS w s2 hw hs2d
      rw [hdec] at hnone
      rw [hnone] at hat
      exact Option.noConfusion hat
    · have hdec : str "http://" ++ s2 =
          str "http" ++ ':' :: (str "//" ++ s2) := rfl
      rw [hdec] at hsuf hat
      obtain ⟨⟨w, hw⟩, hs2d⟩ := suffix_char_aligned ':' (str "http")
        (str "//" ++ s2) c d hsuf hc hd
      have hnone := hH w s2 hw hs2d
      rw [hdec] at hnone
      rw [hnone] at hat
      exact Option.noConfusion hat

/-- Appending at most one trailing char sequence never invents the needle:
an at sign occurring once forces the alignment of any Azure SSH match. -/
theorem azureSshFind_none_single_at (c d : Str) (hcat : '@' ∉ c)
    (hdat : '@' ∉ d)
    (hhead : ∀ t, d ≠ str "ssh.dev.azure.com:v3/" ++ t) :
    azureSshFind (c ++ '@' :: d) = none := by
  apply azureSshFind_eq_none
  intro hinf
  have hneedle : azureSshNeedle =
      str "git" ++ '@' :: str "ssh.dev.azure.com:v3/" := rfl
  rw [hneedle] at hinf
  obtain ⟨t, ht⟩ := infix_char_aligned '@' (str "git")
    (str "ssh.dev.azure.com:v3/") c d hinf hcat hdat
  exact hhead t ht

/-- The trailing-slash trim removes an appended slash. -/
theorem trim_append_slash (u : Str) :
    trimEndSlashes (u ++ str "/") = trimEndSlashes u := by
  rw [trimEndSlashes, trimEndSlashes]
  have hrev : (u ++ str "/").reverse = '/' :: u.reverse := by
    simp [str]
  rw [hrev, List.dropWhile_cons]
  simp

/-- The trailing-slash trim fixes any list not ending in a slash. -/
theorem trim_of_getLast (u : Str) (h : u.getLast? ≠ some '/') :
    trimEndSlashes u = u := by
  rw [trimEndSlashes]
  cases hu : u.reverse with
  | nil =>
    have : u = [] := by
      have := congrArg List.reverse hu
      rwa [List.reverse_reverse] at this
    rw [this]
    rfl
  | cons c t =>
    have hc : ¬ c = '/' := by
      intro hcc
      apply h
      rw [← List.head?_reverse, hu, hcc]
      rfl
    rw [List.dropWhile_cons, if_neg (by simpa using hc), ← hu,
      List.reverse_reverse]

/-- The last element of an appended non-empty list. -/
theorem getLast?_append_right (l l2 : Str) (h : l2 ≠ []) :
    (l ++ l2).getLast? = l2.getLast? := by
  rw [List.getLast?_append]
  rw [List.getLast?_eq_getLast_of_ne_nil h]
  rfl

/-- The last element past a cons cell with a non-empty tail. -/
theorem getLast?_cons_of_ne_nil (x : Char) (l : Str) (h : l ≠ []) :
    (x :: l).getLast? = l.getLast? := by
  have : x :: l = [x] ++ l := rfl
  rw [this, getLast?_append_right _ _ h]

/-- A slash-free non-empty list does not end in a slash. -/
theorem getLast?_ne_slash (l : Str) (hne : l ≠ []) (hs : '/' ∉ l) :
    l.getLast? ≠ some '/' := by
  rw [List.getLast?_eq_getLast_of_ne_nil hne]
  intro hc
  exact hs (Option.some_inj.mp hc ▸ List.getLast_mem hne)

/-- splitOn at an absent separator is the singleton. -/
theorem splitOn_single (ch : Char) (l : Str) (h : ch ∉ l) :
    l.splitOn ch = [l] := by
  rw [List.splitOn]
  apply List.splitOnP_eq_single
  intro x hx hbeq
  exact h (beq_iff_eq.mp hbeq ▸ hx)

/-- extract_hostname on an https URL with userless authority. -/
theorem extract_hostname_https (h rest2 : Str) (hne : h ≠ [])
    (hslash : '/' ∉ h) (hat : '@' ∉ h) (hcolon : ':' ∉ h) :
    extract_hostname (str "https://" ++ (h ++ '/' :: rest2)) =
      some (h.map Char.toLower) := by
  rw [extract_hostname]
  have hng : (str "git@").isPrefixOf
      (str "https://" ++ (h ++ '/' :: rest2)) = false := by
    have : str "https://" ++ (h ++ '/' :: rest2) =
        'h' :: (str "ttps://" ++ (h ++ '/' :: rest2)) := rfl
    rw [this]
    rfl
  rw [if_neg (by rw [hng]; exact Bool.false_ne_true)]
  have hs : schemeSplit (str "https://" ++ (h ++ '/' :: rest2)) =
      some (h ++ '/' :: rest2) := by
    rw [schemeSplit, matchPre_append]
  rw [hs]
  simp only [takeWhile_ne_append '/' h rest2 hslash]
  rw [splitOn_single '@' h hat]
  have hgl : ([h] : List Str).getLastD ([] : Str) = h := rfl
  rw [hgl, takeWhile_ne_all ':' h hcolon]
  have hie : h.isEmpty = false := by
    cases h with
    | nil => exact absurd rfl hne
    | cons a t => rfl
  simp [hie]

/-- extract_hostname on an SSH URL. -/
theorem extract_hostname_ssh (h rest2 : Str) (hcolon : ':' ∉ h) :
    extract_hostname (str "git@" ++ (h ++ ':' :: rest2)) = some h := by
  rw [extract_hostname,
    if_pos (isPrefixOf_append_self (str "git@") (h ++ ':' :: rest2))]
  have hdrop : (str "git@" ++ (h ++ ':' :: rest2)).drop 4 =
      h ++ ':' :: rest2 := by
    have : (4 : Nat) = (str "git@").length := rfl
    rw [this, List.drop_left]
  rw [hdrop, takeWhile_ne_append ':' h rest2 hcolon]

/-- Non-membership distributes over append. -/
theorem not_mem_app {a : Char} {l1 l2 : Str} (h1 : a ∉ l1) (h2 : a ∉ l2) :
    a ∉ l1 ++ l2 := fun h => (List.mem_append.mp h).elim h1 h2

/-- Non-membership distributes over cons. -/
theorem not_mem_cons {a c : Char} {l : Str} (h1 : a ≠ c) (h2 : a ∉ l) :
    a ∉ c :: l := fun h => (List.mem_cons.mp h).elim h1 h2

/-- The Azure DevOps URL grammar of the spec (section 6): an SSH remote
git@ssh.dev.azure.com:v3/org/proj/repo or an HTTPS remote
https://[user@]dev.azure.com/org/proj/_git/repo, optionally with a
trailing .git. -/
def azureUrl (ssh : Bool) (user : Option Str) (org proj repo : Str)
    (dotgit : Bool) : Str :=
  let tail := if dotgit then str ".git" else []
  if ssh then
    azureSshNeedle ++ (org ++ '/' :: (proj ++ '/' :: (repo ++ tail)))
  else
    match user with
    | none =>
      str "https://" ++ (str "dev.azure.com/" ++
        (org ++ '/' :: (proj ++ '/' :: (str "_git/" ++ (repo ++ tail)))))
    | some us =>
      str "https://" ++ (us ++ '@' :: (str "dev.azure.com/" ++
        (org ++ '/' :: (proj ++ '/' :: (str "_git/" ++ (repo ++ tail))))))

/-- C7: every URL of the supported Azure DevOps shapes (HTTPS with optional
user, or SSH), with non-empty slash-free at-sign-free org, project and repo
segments whose percent-decoding succeeds and an optional literal trailing
.git, parses to platform AzureDevOps, owner org/project with the segments
percent-decoded, the percent-decoded repo segment with the single trailing
.git removed, and no host, under any host environment. -/
theorem parse_repo_info_azure (env : HostEnv) (ssh : Bool)
    (user : Option Str) (org proj repo dorg dproj drepo : Str) (dotgit : Bool)
    (hog : org ≠ []) (hos : '/' ∉ org) (hoa : '@' ∉ org)
    (hpg : proj ≠ []) (hps : '/' ∉ proj) (hpa : '@' ∉ proj)
    (hrg : repo ≠ []) (hrs : '/' ∉ repo) (hra : '@' ∉ repo)
    (hrgit : ¬ (str ".git").isSuffixOf repo = true)
    (huser : ∀ us, user = some us → us ≠ [] ∧ '@' ∉ us)
    (hdo : percentDecode org = some dorg)
    (hdp : percentDecode proj = some dproj)
    (hdr : percentDecode repo = some drepo) :
    parse_repo_info env (azureUrl ssh user org proj repo dotgit) =
      .ok ⟨.AzureDevOps, dorg ++ str "/" ++ dproj, drepo, none⟩ := by
  have hraw : (if dotgit then str ".git" else []) = str ".git" ∨
      (if dotgit then str ".git" else []) = [] := by
    cases dotgit
    · exact Or.inr rfl
    · exact Or.inl rfl
  set tail := (if dotgit then str ".git" else []) with htail
  have hrawne : repo ++ tail ≠ [] := by
    intro hc
    exact hrg (List.append_eq_nil.mp hc).1
  have hstrip : stripGitSuffix (repo ++ tail) = repo := by
    rcases hraw with ht | ht
    · rw [ht]
      exact stripGit_append repo hrg
    · rw [ht, List.append_nil]
      exact stripGit_id repo hrgit
  have hrawlast : (repo ++ tail).getLast? ≠ some '/' := by
    rcases hraw with ht | ht
    · rw [ht, getLast?_append_right _ _ (by decide)]
      decide
    · rw [ht, List.append_nil]
      exact getLast?_ne_slash repo hrg hrs
  have hrawat : '@' ∉ repo ++ tail := by
    apply not_mem_app hra
    rcases hraw with ht | ht <;> rw [ht]
    · decide
    · exact List.not_mem_nil '@'
  cases ssh with
  | true =>
    have hu : azureUrl true user org proj repo dotgit =
        azureSshNeedle ++ (org ++ '/' :: (proj ++ '/' :: (repo ++ tail))) :=
      rfl
    rw [hu]
    set u := azureSshNeedle ++ (org ++ '/' :: (proj ++ '/' :: (repo ++ tail)))
      with hudef
    have htr : trimEndSlashes u = u := by
      apply trim_of_getLast
      rw [hudef, getLast?_append_right _ _ (by simp),
        getLast?_append_right _ _ (by simp),
        getLast?_cons_of_ne_nil _ _ (by simp),
        getLast?_append_right _ _ (by simp),
        getLast?_cons_of_ne_nil _ _ (by
          intro hc
          exact hrawne hc)]
      exact hrawlast
    have hat0 : azureSshAt u = some (org, proj, stripGitSuffix (repo ++ tail)) :=
      azureSshAt_construct org proj (repo ++ tail) hos hog hps hpg hrawne
    have hfind : azureSshFind u = some (org, proj, repo) := by
      rw [azureSshFind, scanFor_head _ _ _ hat0, hstrip]
    rw [parse_repo_info, htr, parse_repo_core, detect_platform,
      if_pos (Or.inl (by rw [hfind]; rfl))]
    simp only [parse_azure_devops_url, hfind, hdo, hdp, hdr]
  | false =>
    set hostpath := str "dev.azure.com/" ++
      (org ++ '/' :: (proj ++ '/' :: (str "_git/" ++ (repo ++ tail))))
      with hhp
    have hhostat : azureHostTail hostpath =
        some (org, proj, stripGitSuffix (repo ++ tail)) := by
      rw [hhp]
      exact azureHostTail_construct org proj (repo ++ tail) hos hog hps hpg
        hrawne
    have hhpat : '@' ∉ hostpath := by
      rw [hhp]
      refine not_mem_app (by decide) (not_mem_app hoa (not_mem_cons (by decide)
        (not_mem_app hpa (not_mem_cons (by decide)
          (not_mem_app (by decide) hrawat)))))
    have hhplast : hostpath.getLast? ≠ some '/' := by
      rw [hhp, getLast?_append_right _ _ (by simp),
        getLast?_append_right _ _ (by simp),
        getLast?_cons_of_ne_nil _ _ (by simp),
        getLast?_append_right _ _ (by simp),
        getLast?_cons_of_ne_nil _ _
          (fun hc => absurd (List.append_eq_nil.mp hc).1 (by decide)),
        getLast?_append_right _ _ (fun hc => hrawne hc)]
      exact hrawlast
    have hhpd : ∀ t : Str, hostpath ≠ str "ssh.dev.azure.com:v3/" ++ t := by
      intro t heq
      rw [hhp] at heq
      have hh := congrArg List.head? heq
      have h1 : (str "dev.azure.com/" ++
          (org ++ '/' :: (proj ++ '/' :: (str "_git/" ++ (repo ++ tail))))).head? =
          some 'd' := rfl
      have h2 : (str "ssh.dev.azure.com:v3/" ++ t).head? = some 's' := rfl
      rw [h1, h2] at hh
      exact absurd (Option.some_inj.mp hh) (by decide)
    cases user with
    | none =>
      have hu : azureUrl false none org proj repo dotgit =
          str "https://" ++ hostpath := rfl
      rw [hu]
      set u := str "https://" ++ hostpath with hudef
      have htr : trimEndSlashes u = u := by
        apply trim_of_getLast
        rw [hudef, getLast?_append_right _ _ (by
          rw [hhp]
          exact fun hc => absurd (List.append_eq_nil.mp hc).1 (by decide))]
        exact hhplast
      have hat0 : azureHttpsAt u = some (org, proj, stripGitSuffix (repo ++ tail)) := by
        rw [hudef, azureHttpsAt_nouser hostpath hhpat, hhostat]
      have hfind : azureHttpsFind u = some (org, proj, repo) := by
        rw [azureHttpsFind, scanFor_head _ _ _ hat0, hstrip]
      have hsshnone : azureSshFind u = none := by
        apply azureSshFind_eq_none
        apply not_infix_of_mem_not_mem _ _ '@' (by decide)
        rw [hudef]
        exact not_mem_app (by decide) hhpat
      rw [parse_repo_info, htr, parse_repo_core, detect_platform,
        if_pos (Or.inr (by rw [hfind]; rfl))]
      simp only [parse_azure_devops_url, hsshnone, hfind, hdo, hdp, hdr]
    | some us =>
      obtain ⟨husne, husat⟩ := huser us rfl
      have hu : azureUrl false (some us) org proj repo dotgit =
          str "https://" ++ (us ++ '@' :: hostpath) := rfl
      rw [hu]
      set u := str "https://" ++ (us ++ '@' :: hostpath) with hudef
      have htr : trimEndSlashes u = u := by
        apply trim_of_getLast
        rw [hudef, getLast?_append_right _ _ (by simp),
          getLast?_append_right _ _ (by simp),
          getLast?_cons_of_ne_nil _ _ (by
            rw [hhp]
            exact fun hc => absurd (List.append_eq_nil.mp hc).1 (by decide))]
        exact hhplast
      have hat0 : azureHttpsAt u = some (org, proj, stripGitSuffix (repo ++ tail)) := by
        rw [hudef]
        exact azureHttpsAt_user us hostpath _ husat husne hhostat
      have hfind : azureHttpsFind u = some (org, proj, repo) := by
        rw [azureHttpsFind, scanFor_head _ _ _ hat0, hstrip]
      have hsshnone : azureSshFind u = none := by
        have hsplit : u = (str "https://" ++ us) ++ '@' :: hostpath := by
          rw [hudef, List.append_assoc]
        rw [hsplit]
        exact azureSshFind_none_single_at _ _ (not_mem_app (by decide) husat)
          hhpat hhpd
      rw [parse_repo_info, htr, parse_repo_core, detect_platform,
        if_pos (Or.inr (by rw [hfind]; rfl))]
      simp only [parse_azure_devops_url, hsshnone, hfind, hdo, hdp, hdr]

/-- Witness for C7: the percent-encoded HTTPS shape with a user and .git,
matching the repository test vectors. -/
theorem parse_repo_info_azure_witness :
    parse_repo_info noEnv
        (azureUrl false (some (str "alice")) (str "myorg")
          (str "My%20Project") (str "myrepo") true) =
      .ok ⟨.AzureDevOps, str "myorg/My Project", str "myrepo", none⟩ := by
  have h := parse_repo_info_azure noEnv false (some (str "alice"))
    (str "myorg") (str "My%20Project") (str "myrepo")
    (str "myorg") (str "My Project") (str "myrepo") true
    (by decide) (by decide) (by decide)
    (by decide) (by decide) (by decide)
    (by decide) (by decide) (by decide)
    (by decide)
    (fun us hus => by
      rw [Option.some_inj.mp hus.symm]
      exact ⟨by decide, by decide⟩)
    (by decide) (by decide) (by decide)
  rw [h]
  exact congrArg Except.ok (by decide)

/-- Unfolding of intercalate on two or more parts. -/
theorem intercalate_cons_cons (x : Char) (a b : Str) (t : List Str) :
    List.intercalate [x] (a :: b :: t) = a ++ x :: List.intercalate [x] (b :: t) := by
  simp [List.intercalate, List.intersperse]

/-- Appending a final part to an intercalation. -/
theorem intercalate_concat (x : Char) (ls : List Str) (r : Str) (h : ls ≠ []) :
    List.intercalate [x] (ls ++ [r]) = List.intercalate [x] ls ++ x :: r := by
  induction ls with
  | nil => exact absurd rfl h
  | cons a t ih =>
    cases t with
    | nil => simp [List.intercalate, List.intersperse]
    | cons b t2 =>
      rw [List.cons_append, List.cons_append, intercalate_cons_cons,
        ← List.cons_append, ih (List.cons_ne_nil b t2),
        intercalate_cons_cons]
      simp [List.append_assoc]

/-- A char absent from the separator and every part misses the whole. -/
theorem not_mem_intercalate (c x : Char) (ls : List Str) (hcx : c ≠ x)
    (h : ∀ l ∈ ls, c ∉ l) : c ∉ List.intercalate [x] ls := by
  induction ls with
  | nil => simp [List.intercalate]
  | cons a t ih =>
    cases t with
    | nil =>
      have : List.intercalate [x] [a] = a := by simp [List.intercalate]
      rw [this]
      exact h a (List.mem_cons_self a [])
    | cons b t2 =>
      rw [intercalate_cons_cons]
      exact not_mem_app (h a (List.mem_cons_self a _))
        (not_mem_cons hcx (ih (fun l hl => h l (List.mem_cons_of_mem a hl))))

/-- The head of an appended list with a non-empty left part. -/
theorem head?_append_left (l l2 : Str) (h : l ≠ []) :
    (l ++ l2).head? = l.head? := by
  cases l with
  | nil => exact absurd rfl h
  | cons a t => rfl

/-- Differing heads refute a Boolean prefix test. -/
theorem isPrefixOf_false_of_head (p l : Str) (c1 c2 : Char)
    (hp : p.head? = some c1) (hl : l.head? = some c2) (hne : c1 ≠ c2) :
    p.isPrefixOf l = false := by
  cases p with
  | nil => exact Option.noConfusion hp
  | cons a p2 =>
    cases l with
    | nil => rfl
    | cons b l2 =>
      have ha : a = c1 := Option.some_inj.mp hp
      have hb : b = c2 := Option.some_inj.mp hl
      have : (a == b) = false := by
        rw [ha, hb]
        exact beq_false_of_ne hne
      simp [List.isPrefixOf, this]

/-- Splitting two appends at a char absent from both left parts aligns at
its first occurrence. -/
theorem append_char_eq_left (ch : Char) :
    ∀ (a b c d : Str), a ++ ch :: b = c ++ ch :: d → ch ∉ a → ch ∉ c →
      a = c ∧ b = d := by
  intro a b c d h ha hc
  induction c generalizing a with
  | nil =>
    cases a with
    | nil =>
      simp only [List.nil_append, List.cons.injEq] at h
      exact ⟨rfl, h.2⟩
    | cons x a2 =>
      simp only [List.cons_append, List.nil_append, List.cons.injEq] at h
      exfalso
      apply ha
      rw [← h.1]
      exact List.mem_cons_self x a2
  | cons y c2 ih =>
    cases a with
    | nil =>
      simp only [List.nil_append, List.cons_append, List.cons.injEq] at h
      exfalso
      apply hc
      rw [h.1]
      exact List.mem_cons_self y c2
    | cons x a2 =>
      simp only [List.cons_append, List.cons.injEq] at h
      have ha2 : ch ∉ a2 := fun h2 => ha (List.mem_cons_of_mem x h2)
      have hc2 : ch ∉ c2 := fun h2 => hc (List.mem_cons_of_mem y h2)
      obtain ⟨h1, h2⟩ := ih a2 h.2 ha2 hc2
      exact ⟨by rw [h.1, h1], h2⟩

/-- A slash-free hostname other than dev.azure.com never starts the Azure
HTTPS host tail. -/
theorem azureHostTail_none_of_ne (h rest : Str) (hhs : '/' ∉ h)
    (hne : h ≠ str "dev.azure.com") :
    azureHostTail (h ++ '/' :: rest) = none := by
  have hfalse : (str "dev.azure.com/").isPrefixOf (h ++ '/' :: rest) =
      false := by
    cases hx : (str "dev.azure.com/").isPrefixOf (h ++ '/' :: rest) with
    | false => rfl
    | true =>
      exfalso
      rw [ List.isPrefixOf_iff_prefix] at hx
      obtain ⟨t, ht⟩ := hx
      have hshape : str "dev.azure.com/" ++ t =
          str "dev.azure.com" ++ '/' :: t := rfl
      rw [hshape] at ht
      obtain ⟨h1, _⟩ := append_char_eq_left '/' h rest (str "dev.azure.com")
        t ht.symm hhs (by decide)
      exact hne h1
  have hmp : matchPre (str "dev.azure.com/") (h ++ '/' :: rest) = none := by
    rw [matchPre, if_neg (by rw [hfalse]; exact Bool.false_ne_true)]
  rw [azureHostTail, hmp]

/-- sshPathAt fails when no colon follows the git-at needle. -/
theorem sshPathAt_no_colon (t : Str) (hc : ':' ∉ t) :
    sshPathAt (str "git@" ++ t) = none := by
  simp only [sshPathAt, matchPre_append, takeWhile_ne_all ':' t hc,
    List.drop_length]
  by_cases ht : t.isEmpty = true
  · simp [ht]
  · simp [ht]

/-- No generic SSH capture in a subject whose single at sign is followed by
a colon-free tail. -/
theorem sshPathFind_none_single_at (c d : Str) (hcat : '@' ∉ c)
    (hdat : '@' ∉ d) (hdc : ':' ∉ d) :
    sshPathFind (c ++ '@' :: d) = none := by
  cases hf : sshPathFind (c ++ '@' :: d) with
  | none => rfl
  | some r =>
    exfalso
    obtain ⟨s, hsuf, hat⟩ := scanFor_eq_some _ _ _ hf
    obtain ⟨t, rfl⟩ := sshPathAt_needle _ _ hat
    have hdec : str "git@" ++ t = str "git" ++ '@' :: t := rfl
    rw [hdec] at hsuf
    obtain ⟨_, ht⟩ := suffix_char_aligned '@' (str "git") t c d hsuf hcat hdat
    rw [ht, sshPathAt_no_colon d hdc] at hat
    exact Option.noConfusion hat

/-- azureHttpsAt fails on a user authority whose host tail fails, the
slash-free user part also blocking the userless fall-back. -/
theorem azureHttpsAt_user_none (us rest : Str) (husne : us ≠ [])
    (husa : '@' ∉ us) (huss : '/' ∉ us) (h : azureHostTail rest = none) :
    azureHttpsAt (str "https://" ++ (us ++ '@' :: rest)) = none := by
  have hfb : azureHostTail (us ++ '@' :: rest) = none := by
    have hfalse : (str "dev.azure.com/").isPrefixOf (us ++ '@' :: rest) =
        false := by
      cases hx : (str "dev.azure.com/").isPrefixOf (us ++ '@' :: rest) with
      | false => rfl
      | true =>
        exfalso
        rw [ List.isPrefixOf_iff_prefix] at hx
        have hpus := pre_of_append_char _ us rest '@' (by decide) hx
        exact huss (hpus.subset (by decide))
    have hmp : matchPre (str "dev.azure.com/") (us ++ '@' :: rest) =
        none := by
      rw [matchPre, if_neg (by rw [hfalse]; exact Bool.false_ne_true)]
    rw [azureHostTail, hmp]
  rw [azureHttpsAt]
  have hs : schemeSplit (str "https://" ++ (us ++ '@' :: rest)) =
      some (us ++ '@' :: rest) := by
    rw [schemeSplit, matchPre_append]
  rw [hs]
  simp only [takeWhile_ne_append '@' us rest husa]
  have hlen : ¬ (us.isEmpty = true ∨
      us.length = (us ++ '@' :: rest).length) := by
    push_neg
    constructor
    · cases us with
      | nil => exact absurd rfl husne
      | cons a t => simp
    · simp only [List.length_append, List.length_cons]
      omega
  rw [if_neg hlen, drop_append_cons, h]
  exact hfb

/-- extract_hostname on an https URL with a user-at authority: the url
crate takes the authority part after the last at sign as the host. -/
theorem extract_hostname_https_user (us h rest2 : Str) (husl : '/' ∉ us)
    (husa : '@' ∉ us) (hne : h ≠ []) (hslash : '/' ∉ h) (hat : '@' ∉ h)
    (hcolon : ':' ∉ h) :
    extract_hostname (str "https://" ++ (us ++ '@' :: (h ++ '/' :: rest2))) =
      some (h.map Char.toLower) := by
  rw [extract_hostname]
  have hng : (str "git@").isPrefixOf
      (str "https://" ++ (us ++ '@' :: (h ++ '/' :: rest2))) = false := by
    have hsh : str "https://" ++ (us ++ '@' :: (h ++ '/' :: rest2)) =
        'h' :: (str "ttps://" ++ (us ++ '@' :: (h ++ '/' :: rest2))) := rfl
    rw [hsh]
    rfl
  rw [if_neg (by rw [hng]; exact Bool.false_ne_true)]
  have hs : schemeSplit
      (str "https://" ++ (us ++ '@' :: (h ++ '/' :: rest2))) =
      some (us ++ '@' :: (h ++ '/' :: rest2)) := by
    rw [schemeSplit, matchPre_append]
  rw [hs]
  have hassoc : us ++ '@' :: (h ++ '/' :: rest2) =
      (us ++ '@' :: h) ++ '/' :: rest2 := by
    simp
  rw [hassoc]
  simp only [takeWhile_ne_append '/' (us ++ '@' :: h) rest2
    (not_mem_app husl (not_mem_cons (by decide) hslash))]
  have hint : us ++ '@' :: h = List.intercalate ['@'] [us, h] := by
    rw [intercalate_cons_cons]
    simp [List.intercalate]
  have hsplit : (us ++ '@' :: h).splitOn '@' = [us, h] := by
    rw [hint]
    apply List.splitOn_intercalate
    · intro l hl
      rcases List.mem_cons.mp hl with rfl | hl2
      · exact husa
      · rcases List.mem_cons.mp hl2 with rfl | hl3
        · exact hat
        · exact absurd hl3 (List.not_mem_nil l)
    · exact List.cons_ne_nil us [h]
  rw [hsplit]
  have hgl : ([us, h] : List Str).getLastD ([] : Str) = h := rfl
  rw [hgl, takeWhile_ne_all ':' h hcolon]
  have hie : h.isEmpty = false := by
    cases h with
    | nil => exact absurd rfl hne
    | cons a t => rfl
  simp [hie]

/-- The head of a slash intercalation with a non-empty first part. -/
theorem intercalate_head (x : Char) (a : Str) (t : List Str) (ha : a ≠ []) :
    (List.intercalate [x] (a :: t)).head? = a.head? := by
  cases t with
  | nil =>
    have hsing : List.intercalate [x] [a] = a := by simp [List.intercalate]
    rw [hsing]
  | cons b t2 =>
    rw [intercalate_cons_cons]
    exact head?_append_left a _ ha

/-- The GitHub and GitLab URL grammar of the spec (section 6):
https://[user@]host/owner/repo or git@host:owner/repo, with an optional
literal trailing .git appended at the end of the URL. -/
def ghUrl (ssh : Bool) (user : Option Str) (host owner repo : Str)
    (dotgit : Bool) : Str :=
  (if ssh then str "git@" ++ (host ++ ':' :: (owner ++ '/' :: repo))
   else
     match user with
     | none => str "https://" ++ (host ++ '/' :: (owner ++ '/' :: repo))
     | some us =>
       str "https://" ++
         (us ++ '@' :: (host ++ '/' :: (owner ++ '/' :: repo)))) ++
  (if dotgit then str ".git" else [])

/-- Full run of parse_repo_info on a supported HTTPS GitHub or GitLab URL,
with an optional user part and an optional trailing .git, under any host
environment whose detection cascade resolves the hostname to the platform.
The owner is given as its slash-separated segments (GitLab nested groups). -/
theorem parse_gh_https (env : HostEnv) (host repo : Str) (segs : List Str)
    (user : Option Str) (dotgit : Bool) (p : Platform)
    (hhne : host ≠ []) (hhs : '/' ∉ host) (hha : '@' ∉ host) (hhc : ':' ∉ host)
    (hlow : host.map Char.toLower = host)
    (huser : ∀ us, user = some us →
      us ≠ [] ∧ '/' ∉ us ∧ '@' ∉ us ∧ ':' ∉ us)
    (hsegs : segs ≠ [])
    (hsegsf : ∀ sg ∈ segs, sg ≠ [] ∧ '/' ∉ sg ∧ '@' ∉ sg ∧ ':' ∉ sg)
    (hrg : repo ≠ []) (hrs : '/' ∉ repo) (hra : '@' ∉ repo) (hrc : ':' ∉ repo)
    (hrgit : ¬ (str ".git").isSuffixOf repo = true)
    (hsel : hostCheck env host = some p)
    (hp : p = .GitHub ∨ p = .GitLab) :
    parse_repo_info env
        (ghUrl false user host ((str "/").intercalate segs) repo dotgit) =
      .ok ⟨p, (str "/").intercalate segs, repo,
        self_hosted_host p (some host)⟩ := by
  have hsl : (str "/") = ['/'] := rfl
  rw [hsl]
  have hpnaz : p ≠ Platform.AzureDevOps := by
    intro haz
    rcases hp with rfl | rfl <;> exact Platform.noConfusion haz
  have hndev : host ≠ str "dev.azure.com" := by
    intro heq
    rw [hostCheck, if_pos (Or.inl heq)] at hsel
    exact hpnaz (Option.some_inj.mp hsel).symm
  have hraw : (if dotgit then str ".git" else []) = str ".git" ∨
      (if dotgit then str ".git" else []) = [] := by
    cases dotgit
    · exact Or.inr rfl
    · exact Or.inl rfl
  set tail := (if dotgit then str ".git" else []) with htail
  set owner := List.intercalate ['/'] segs with howner
  have hoa : '@' ∉ owner :=
    not_mem_intercalate '@' '/' segs (by decide)
      (fun l hl => (hsegsf l hl).2.2.1)
  have hoc : ':' ∉ owner :=
    not_mem_intercalate ':' '/' segs (by decide)
      (fun l hl => (hsegsf l hl).2.2.2)
  set raw := repo ++ tail with hrawdef
  have hrawne : raw ≠ [] := by
    intro hc
    exact hrg (List.append_eq_nil.mp hc).1
  have hrawat : '@' ∉ raw := by
    rw [hrawdef]
    apply not_mem_app hra
    rcases hraw with ht | ht <;> rw [ht]
    · decide
    · exact List.not_mem_nil '@'
  have hrawc : ':' ∉ raw := by
    rw [hrawdef]
    apply not_mem_app hrc
    rcases hraw with ht | ht <;> rw [ht]
    · decide
    · exact List.not_mem_nil ':'
  have hrawlast : raw.getLast? ≠ some '/' := by
    rcases hraw with ht | ht <;> rw [hrawdef, ht]
    · rw [getLast?_append_right _ _ (by decide)]
      decide
    · rw [List.append_nil]
      exact getLast?_ne_slash repo hrg hrs
  set path2 := owner ++ '/' :: raw with hpath2
  have hpne : path2 ≠ [] := by
    rw [hpath2]
    simp
  have hpat : '@' ∉ path2 := by
    rw [hpath2]
    exact not_mem_app hoa (not_mem_cons (by decide) hrawat)
  have hpc : ':' ∉ path2 := by
    rw [hpath2]
    exact not_mem_app hoc (not_mem_cons (by decide) hrawc)
  have hstrippath : stripGitSuffix path2 = owner ++ '/' :: repo := by
    rcases hraw with ht | ht
    · have hre : path2 = (owner ++ '/' :: repo) ++ str ".git" := by
        rw [hpath2, hrawdef, ht]
        simp [List.append_assoc]
      rw [hre]
      exact stripGit_append _ (by simp)
    · have hre : path2 = owner ++ '/' :: repo := by
        rw [hpath2, hrawdef, ht, List.append_nil]
      rw [hre]
      exact stripGit_id _ (not_git_suffix_append owner repo hrgit)
  have hhosttail : azureHostTail (host ++ '/' :: path2) = none :=
    azureHostTail_none_of_ne host path2 hhs hndev
  have hparts : (owner ++ '/' :: repo).splitOn '/' = segs ++ [repo] := by
    have hins : owner ++ '/' :: repo = List.intercalate ['/'] (segs ++ [repo]) := by
      rw [intercalate_concat '/' segs repo hsegs, howner]
    rw [hins]
    apply List.splitOn_intercalate
    · intro l hl
      rcases List.mem_append.mp hl with h1 | h2
      · exact (hsegsf l h1).2.1
      · rw [List.mem_singleton.mp h2]
        exact hrs
    · intro hc
      exact hsegs (List.append_eq_nil.mp hc).1
  have hlen : ¬ (segs ++ [repo]).length < 2 := by
    have h0 : segs.length ≠ 0 := fun hc => hsegs (List.length_eq_zero.mp hc)
    simp only [List.length_append, List.length_singleton]
    omega
  cases user with
  | none =>
    have hu : ghUrl false none host owner repo dotgit =
        str "https://" ++ (host ++ '/' :: path2) := by
      rw [ghUrl, hpath2, hrawdef, ← htail]
      simp [List.append_assoc]
    rw [hu]
    set u := str "https://" ++ (host ++ '/' :: path2) with hudef
    have huat : '@' ∉ u := by
      rw [hudef]
      exact not_mem_app (by decide) (not_mem_app hha (not_mem_cons (by decide)
        hpat))
    have htr : trimEndSlashes u = u := by
      apply trim_of_getLast
      rw [hudef, getLast?_append_right _ _ (by simp),
        getLast?_append_right _ _ (by simp),
        getLast?_cons_of_ne_nil _ _ hpne, hpath2,
        getLast?_append_right _ _ (by simp),
        getLast?_cons_of_ne_nil _ _ hrawne]
      exact hrawlast
    have hhostname : extract_hostname u = some host := by
      rw [hudef, extract_hostname_https host path2 hhne hhs hha hhc, hlow]
    have hsshscan : azureSshFind u = none :=
      azureSshFind_eq_none u
        (not_infix_of_mem_not_mem _ _ '@' (by decide) huat)
    have hhttpsscan : azureHttpsFind u = none := by
      have hshape : u = str "https" ++ ':' :: (str "//" ++ (host ++ '/' :: path2)) := by
        rw [hudef]
        rfl
      rw [hshape]
      apply azureHttpsFind_eq_none
      · decide
      · exact not_mem_app (by decide) (not_mem_app hhc (not_mem_cons (by decide)
          hpc))
      · intro w s2 hwh hs2
        have hs2e : s2 = host ++ '/' :: path2 := List.append_cancel_left hs2
        rw [hs2e, azureHttpsAt_nouser _ (not_mem_app hha (not_mem_cons (by decide)
          hpat)), hhosttail]
      · intro w s2 hwh hs2
        exfalso
        have hg := congrArg List.getLast? hwh
        rw [getLast?_append_right _ _ (by decide)] at hg
        exact absurd (Option.some_inj.mp hg) (by decide)
    have hsshpath : sshPathFind u = none :=
      sshPathFind_eq_none u
        (not_infix_of_mem_not_mem _ _ '@' (by decide) huat)
    have hhttpspath : httpsPathFind u = some (owner ++ '/' :: repo) := by
      rw [hudef, httpsPathFind,
        scanFor_head _ _ _ (httpsPathAt_construct host path2 hhs hhne hpne),
        hstrippath]
    have hdetect : detect_platform env u = some p := by
      rw [detect_platform, if_neg (by
        rw [hsshscan, hhttpsscan]
        simp), hhostname]
      exact hsel
    rw [parse_repo_info, htr, parse_repo_core, hdetect]
    rcases hp with rfl | rfl <;>
      rw [hsshpath] <;>
      simp only [Option.orElse_none, Option.orElse] <;>
      rw [hhttpspath] <;>
      simp only [hparts, hhostname] <;>
      rw [if_neg hlen, List.getLastD_concat, List.dropLast_concat] <;>
      simp <;>
      exact howner.symm
  | some us =>
    obtain ⟨husne, huss, husa, husc⟩ := huser us rfl
    have hu : ghUrl false (some us) host owner repo dotgit =
        str "https://" ++ (us ++ '@' :: (host ++ '/' :: path2)) := by
      rw [ghUrl, hpath2, hrawdef, ← htail]
      simp [List.append_assoc]
    rw [hu]
    set u := str "https://" ++ (us ++ '@' :: (host ++ '/' :: path2)) with hudef
    have hdat : '@' ∉ host ++ '/' :: path2 :=
      not_mem_app hha (not_mem_cons (by decide) hpat)
    have hdc : ':' ∉ host ++ '/' :: path2 :=
      not_mem_app hhc (not_mem_cons (by decide) hpc)
    have htr : trimEndSlashes u = u := by
      apply trim_of_getLast
      rw [hudef, getLast?_append_right _ _ (by simp),
        getLast?_append_right _ _ (by simp),
        getLast?_cons_of_ne_nil _ _ (by simp),
        getLast?_append_right _ _ (by simp),
        getLast?_cons_of_ne_nil _ _ hpne, hpath2,
        getLast?_append_right _ _ (by simp),
        getLast?_cons_of_ne_nil _ _ hrawne]
      exact hrawlast
    have hhostname : extract_hostname u = some host := by
      rw [hudef, extract_hostname_https_user us host path2 huss husa hhne hhs
        hha hhc, hlow]
    have hsshscan : azureSshFind u = none := by
      have hshape : u = (str "https://" ++ us) ++ '@' :: (host ++ '/' :: path2) := by
        rw [hudef, List.append_assoc]
      rw [hshape]
      apply azureSshFind_none_single_at
      · exact not_mem_app (by decide) husa
      · exact hdat
      · intro t heq
        apply hdc
        rw [heq]
        exact List.mem_append_left _ (by decide)
    have hhttpsscan : azureHttpsFind u = none := by
      have hshape : u = str "https" ++ ':' ::
          (str "//" ++ (us ++ '@' :: (host ++ '/' :: path2))) := by
        rw [hudef]
        rfl
      rw [hshape]
      apply azureHttpsFind_eq_none
      · decide
      · exact not_mem_app (by decide) (not_mem_app husc
          (not_mem_cons (by decide) hdc))
      · intro w s2 hwh hs2
        have hs2e : s2 = us ++ '@' :: (host ++ '/' :: path2) :=
          List.append_cancel_left hs2
        rw [hs2e, azureHttpsAt_user_none us _ husne husa huss hhosttail]
      · intro w s2 hwh hs2
        exfalso
        have hg := congrArg List.getLast? hwh
        rw [getLast?_append_right _ _ (by decide)] at hg
        exact absurd (Option.some_inj.mp hg) (by decide)
    have hsshpath : sshPathFind u = none := by
      have hshape : u = (str "https://" ++ us) ++ '@' :: (host ++ '/' :: path2) := by
        rw [hudef, List.append_assoc]
      rw [hshape]
      exact sshPathFind_none_single_at _ _ (not_mem_app (by decide) husa)
        hdat hdc
    have hhttpspath : httpsPathFind u = some (owner ++ '/' :: repo) := by
      have hassoc2 : us ++ '@' :: (host ++ '/' :: path2) =
          (us ++ '@' :: host) ++ '/' :: path2 := by
        simp
      rw [hudef, hassoc2, httpsPathFind,
        scanFor_head _ _ _ (httpsPathAt_construct (us ++ '@' :: host) path2
          (not_mem_app huss (not_mem_cons (by decide) hhs)) (by simp) hpne),
        hstrippath]
    have hdetect : detect_platform env u = some p := by
      rw [detect_platform, if_neg (by
        rw [hsshscan, hhttpsscan]
        simp), hhostname]
      exact hsel
    rw [parse_repo_info, htr, parse_repo_core, hdetect]
    rcases hp with rfl | rfl <;>
      rw [hsshpath] <;>
      simp only [Option.orElse_none, Option.orElse] <;>
      rw [hhttpspath] <;>
      simp only [hparts, hhostname] <;>
      rw [if_neg hlen, List.getLastD_concat, List.dropLast_concat] <;>
      simp <;>
      exact howner.symm

/-- Full run of parse_repo_info on a supported SSH GitHub or GitLab URL
with an optional trailing .git, under any host environment whose detection
cascade resolves the hostname to the platform. -/
theorem parse_gh_ssh (env : HostEnv) (host repo : Str) (segs : List Str)
    (user : Option Str) (dotgit : Bool) (p : Platform)
    (hhne : host ≠ []) (hhs : '/' ∉ host) (hha : '@' ∉ host) (hhc : ':' ∉ host)
    (hsegs : segs ≠ [])
    (hsegsf : ∀ sg ∈ segs, sg ≠ [] ∧ '/' ∉ sg ∧ '@' ∉ sg ∧ ':' ∉ sg)
    (hrg : repo ≠ []) (hrs : '/' ∉ repo) (hra : '@' ∉ repo) (hrc : ':' ∉ repo)
    (hrgit : ¬ (str ".git").isSuffixOf repo = true)
    (hsel : hostCheck env host = some p)
    (hp : p = .GitHub ∨ p = .GitLab) :
    parse_repo_info env
        (ghUrl true user host ((str "/").intercalate segs) repo dotgit) =
      .ok ⟨p, (str "/").intercalate segs, repo,
        self_hosted_host p (some host)⟩ := by
  have hsl : (str "/") = ['/'] := rfl
  rw [hsl]
  have hpnaz : p ≠ Platform.AzureDevOps := by
    intro haz
    rcases hp with rfl | rfl <;> exact Platform.noConfusion haz
  have hnssh : host ≠ str "ssh.dev.azure.com" := by
    intro heq
    rw [hostCheck, if_pos (Or.inr (Or.inl heq))] at hsel
    exact hpnaz (Option.some_inj.mp hsel).symm
  have hraw : (if dotgit then str ".git" else []) = str ".git" ∨
      (if dotgit then str ".git" else []) = [] := by
    cases dotgit
    · exact Or.inr rfl
    · exact Or.inl rfl
  set tail := (if dotgit then str ".git" else []) with htail
  set owner := List.intercalate ['/'] segs with howner
  have hoa : '@' ∉ owner :=
    not_mem_intercalate '@' '/' segs (by decide)
      (fun l hl => (hsegsf l hl).2.2.1)
  have hoc : ':' ∉ owner :=
    not_mem_intercalate ':' '/' segs (by decide)
      (fun l hl => (hsegsf l hl).2.2.2)
  set raw := repo ++ tail with hrawdef
  have hrawne : raw ≠ [] := by
    intro hc
    exact hrg (List.append_eq_nil.mp hc).1
  have hrawat : '@' ∉ raw := by
    rw [hrawdef]
    apply not_mem_app hra
    rcases hraw with ht | ht <;> rw [ht]
    · decide
    · exact List.not_mem_nil '@'
  have hrawc : ':' ∉ raw := by
    rw [hrawdef]
    apply not_mem_app hrc
    rcases hraw with ht | ht <;> rw [ht]
    · decide
    · exact List.not_mem_nil ':'
  have hrawlast : raw.getLast? ≠ some '/' := by
    rcases hraw with ht | ht <;> rw [hrawdef, ht]
    · rw [getLast?_append_right _ _ (by decide)]
      decide
    · rw [List.append_nil]
      exact getLast?_ne_slash repo hrg hrs
  set path2 := owner ++ '/' :: raw with hpath2
  have hpne : path2 ≠ [] := by
    rw [hpath2]
    simp
  have hpat : '@' ∉ path2 := by
    rw [hpath2]
    exact not_mem_app hoa (not_mem_cons (by decide) hrawat)
  have hpc : ':' ∉ path2 := by
    rw [hpath2]
    exact not_mem_app hoc (not_mem_cons (by decide) hrawc)
  have hstrippath : stripGitSuffix path2 = owner ++ '/' :: repo := by
    rcases hraw with ht | ht
    · have hre : path2 = (owner ++ '/' :: repo) ++ str ".git" := by
        rw [hpath2, hrawdef, ht]
        simp [List.append_assoc]
      rw [hre]
      exact stripGit_append _ (by simp)
    · have hre : path2 = owner ++ '/' :: repo := by
        rw [hpath2, hrawdef, ht, List.append_nil]
      rw [hre]
      exact stripGit_id _ (not_git_suffix_append owner repo hrgit)
  have hsegsne : ∃ s1 t0, segs = s1 :: t0 := by
    cases segs with
    | nil => exact absurd rfl hsegs
    | cons s1 t0 => exact ⟨s1, t0, rfl⟩
  obtain ⟨s1, t0, hse⟩ := hsegsne
  have hs1 := hsegsf s1 (by rw [hse]; exact List.mem_cons_self s1 t0)
  have hoh : ∃ c0, owner.head? = some c0 ∧ c0 ≠ '/' := by
    rw [howner, hse, intercalate_head '/' s1 t0 hs1.1]
    cases s1 with
    | nil => exact absurd rfl hs1.1
    | cons c0 s1t =>
      refine ⟨c0, rfl, ?_⟩
      intro hc
      apply hs1.2.1
      rw [← hc]
      exact List.mem_cons_self c0 s1t
  obtain ⟨c0, hc0, hc0s⟩ := hoh
  have hone : owner ≠ [] := by
    intro hc
    rw [hc] at hc0
    exact Option.noConfusion hc0
  have hu : ghUrl true user host owner repo dotgit =
      str "git@" ++ (host ++ ':' :: path2) := by
    rw [ghUrl.eq_def, hpath2, hrawdef, ← htail]
    simp [List.append_assoc]
  rw [hu]
  set u := str "git@" ++ (host ++ ':' :: path2) with hudef
  have htr : trimEndSlashes u = u := by
    apply trim_of_getLast
    rw [hudef, getLast?_append_right _ _ (by simp),
      getLast?_append_right _ _ (by simp),
      getLast?_cons_of_ne_nil _ _ hpne, hpath2,
      getLast?_append_right _ _ (by simp),
      getLast?_cons_of_ne_nil _ _ hrawne]
    exact hrawlast
  have hhostname : extract_hostname u = some host := by
    rw [hudef]
    exact extract_hostname_ssh host path2 hhc
  have hsshscan : azureSshFind u = none := by
    have hshape : u = str "git" ++ '@' :: (host ++ ':' :: path2) := by
      rw [hudef]
      rfl
    rw [hshape]
    apply azureSshFind_none_single_at
    · decide
    · exact not_mem_app hha (not_mem_cons (by decide) hpat)
    · intro t heq
      have hts : str "ssh.dev.azure.com:v3/" ++ t =
          str "ssh.dev.azure.com" ++ ':' :: (str "v3/" ++ t) := rfl
      rw [hts] at heq
      obtain ⟨h1, _⟩ := append_char_eq_left ':' host path2
        (str "ssh.dev.azure.com") (str "v3/" ++ t) heq hhc (by decide)
      exact hnssh h1
  have hhttpsscan : azureHttpsFind u = none := by
    have hshape : u = (str "git@" ++ host) ++ ':' :: path2 := by
      rw [hudef, List.append_assoc]
    rw [hshape]
    apply azureHttpsFind_eq_none
    · exact not_mem_app (by decide) hhc
    · exact hpc
    · intro w s2 hwh hs2
      exfalso
      have hh2 := congrArg List.head? hs2
      rw [head?_append_left _ _ (by decide), hpath2,
        head?_append_left _ _ hone] at hh2
      have h3 : some '/' = some c0 := by
        rw [← hc0, ← hh2]
        rfl
      exact hc0s (Option.some_inj.mp h3).symm
    · intro w s2 hwh hs2
      exfalso
      have hh2 := congrArg List.head? hs2
      rw [head?_append_left _ _ (by decide), hpath2,
        head?_append_left _ _ hone] at hh2
      have h3 : some '/' = some c0 := by
        rw [← hc0, ← hh2]
        rfl
      exact hc0s (Option.some_inj.mp h3).symm
  have hsshpathfind : sshPathFind u = some (owner ++ '/' :: repo) := by
    rw [hudef, sshPathFind,
      scanFor_head _ _ _ (sshPathAt_construct host path2 hhc hhne hpne),
      hstrippath]
  have hdetect : detect_platform env u = some p := by
    rw [detect_platform, if_neg (by
      rw [hsshscan, hhttpsscan]
      simp), hhostname]
    exact hsel
  have hparts : (owner ++ '/' :: repo).splitOn '/' = segs ++ [repo] := by
    have hins : owner ++ '/' :: repo =
        List.intercalate ['/'] (segs ++ [repo]) := by
      rw [intercalate_concat '/' segs repo hsegs, howner]
    rw [hins]
    apply List.splitOn_intercalate
    · intro l hl
      rcases List.mem_append.mp hl with h1 | h2
      · exact (hsegsf l h1).2.1
      · rw [List.mem_singleton.mp h2]
        exact hrs
    · intro hc
      exact hsegs (List.append_eq_nil.mp hc).1
  have hlen : ¬ (segs ++ [repo]).length < 2 := by
    have h0 : segs.length ≠ 0 := fun hc => hsegs (List.length_eq_zero.mp hc)
    simp only [List.length_append, List.length_singleton]
    omega
  rw [parse_repo_info, htr, parse_repo_core, hdetect]
  rcases hp with rfl | rfl <;>
    rw [hsshpathfind] <;>
    simp only [Option.orElse] <;>
    simp only [hparts, hhostname] <;>
    rw [if_neg hlen, List.getLastD_concat, List.dropLast_concat] <;>
    simp <;>
    exact howner.symm

/-- C9: parse_repo_info is insensitive to trailing decoration: appending a
trailing slash to any URL never changes the result under any environment
(the trim removes all trailing slashes first); and for every URL of the
supported GitHub or GitLab shapes under any host environment (https with an
optional user part, or SSH; any hostname the detection cascade resolves to
GitHub or GitLab, covering the canonical hosts, .github.com and .gitlab.com
subdomain hosts, and GH_HOST / GITLAB_HOST override hosts; slash-separated
owner segments; repo segment not already ending in .git) appending one .git
yields the same parse, i.e. exactly one trailing .git is stripped from the
repo name. -/
theorem parse_repo_info_decoration :
    (∀ (env : HostEnv) (u : Str),
      parse_repo_info env (u ++ str "/") = parse_repo_info env u) ∧
    (∀ (env : HostEnv) (ssh : Bool) (user : Option Str) (host repo : Str)
        (segs : List Str) (p : Platform),
      host ≠ [] → '/' ∉ host → '@' ∉ host → ':' ∉ host →
      host.map Char.toLower = host →
      (∀ us, user = some us → us ≠ [] ∧ '/' ∉ us ∧ '@' ∉ us ∧ ':' ∉ us) →
      segs ≠ [] →
      (∀ sg ∈ segs, sg ≠ [] ∧ '/' ∉ sg ∧ '@' ∉ sg ∧ ':' ∉ sg) →
      repo ≠ [] → '/' ∉ repo → '@' ∉ repo → ':' ∉ repo →
      ¬ (str ".git").isSuffixOf repo = true →
      hostCheck env host = some p →
      (p = .GitHub ∨ p = .GitLab) →
      (ghUrl ssh user host ((str "/").intercalate segs) repo false ++
          str ".git" =
        ghUrl ssh user host ((str "/").intercalate segs) repo true ∧
       parse_repo_info env
           (ghUrl ssh user host ((str "/").intercalate segs) repo false ++
             str ".git") =
         parse_repo_info env
           (ghUrl ssh user host ((str "/").intercalate segs) repo false))) := by
  constructor
  · intro env u
    rw [parse_repo_info, parse_repo_info, trim_append_slash]
  · intro env ssh user host repo segs p hhne hhs hha hhc hlow huser hsegs
      hsegsf hrg hrs hra hrc hrgit hsel hp
    have hgit : ghUrl ssh user host ((str "/").intercalate segs) repo false ++
        str ".git" =
        ghUrl ssh user host ((str "/").intercalate segs) repo true := by
      cases ssh <;> cases user <;> simp [ghUrl]
    refine ⟨hgit, ?_⟩
    rw [hgit]
    cases ssh
    · rw [parse_gh_https env host repo segs user true p hhne hhs hha hhc hlow
          huser hsegs hsegsf hrg hrs hra hrc hrgit hsel hp,
        parse_gh_https env host repo segs user false p hhne hhs hha hhc hlow
          huser hsegs hsegsf hrg hrs hra hrc hrgit hsel hp]
    · rw [parse_gh_ssh env host repo segs user true p hhne hhs hha hhc
          hsegs hsegsf hrg hrs hra hrc hrgit hsel hp,
        parse_gh_ssh env host repo segs user false p hhne hhs hha hhc
          hsegs hsegsf hrg hrs hra hrc hrgit hsel hp]

/-- Witness for C9 at concrete URLs: a trailing slash on a GitHub URL, and
a trailing .git on a nested-group HTTPS URL with a user part whose host is
supported through the GH_HOST override environment. -/
theorem parse_repo_info_decoration_witness :
    parse_repo_info noEnv (str "https://github.com/o/r" ++ str "/") =
      parse_repo_info noEnv (str "https://github.com/o/r") ∧
    parse_repo_info ⟨some (str "ghe.example"), none, none⟩
        (ghUrl false (some (str "bob")) (str "ghe.example")
          ((str "/").intercalate [str "grp", str "sub"]) (str "r") false ++
          str ".git") =
      parse_repo_info ⟨some (str "ghe.example"), none, none⟩
        (ghUrl false (some (str "bob")) (str "ghe.example")
          ((str "/").intercalate [str "grp", str "sub"]) (str "r") false) := by
  constructor
  · exact parse_repo_info_decoration.1 noEnv (str "https://github.com/o/r")
  · exact (parse_repo_info_decoration.2 ⟨some (str "ghe.example"), none, none⟩
      false (some (str "bob")) (str "ghe.example") (str "r")
      [str "grp", str "sub"] .GitHub
      (by decide) (by decide) (by decide) (by decide) (by decide)
      (fun us hus => by
        rw [Option.some_inj.mp hus.symm]
        exact ⟨by decide, by decide, by decide, by decide⟩)
      (by decide)
      (by
        intro sg hsg
        rcases List.mem_cons.mp hsg with rfl | hsg2
        · exact ⟨by decide, by decide, by decide, by decide⟩
        · rcases List.mem_cons.mp hsg2 with rfl | hsg3
          · exact ⟨by decide, by decide, by decide, by decide⟩
          · exact absurd hsg3 (List.not_mem_nil sg))
      (by decide) (by decide) (by decide) (by decide) (by decide)
      (by decide) (Or.inl rfl)).2

/-- Boolean contains agrees with membership on index lists. -/
theorem contains_mem (l : List Nat) (a : Nat) : l.contains a = true ↔ a ∈ l := by
  simp

/-- A minimum of a list bounds its members from below and is a member. -/
theorem min?_le_mem (l : List Nat) (m : Nat) (hm : l.min? = some m) :
    m ∈ l ∧ ∀ a ∈ l, m ≤ a := by
  rw [List.min?_eq_some_iff] at hm
  · exact hm
  · exact fun a => Nat.le_refl a
  · exact fun a b => by omega
  · exact fun a b c => Nat.le_min

/-- A maximum of a list bounds its members from above and is a member. -/
theorem max?_ge_mem (l : List Nat) (m : Nat) (hm : l.max? = some m) :
    m ∈ l ∧ ∀ a ∈ l, a ≤ m := by
  rw [List.max?_eq_some_iff] at hm
  · exact hm
  · exact fun a => Nat.le_refl a
  · exact fun a b => by omega
  · exact fun a b c => Nat.max_le

/-- A non-empty list has a minimum. -/
theorem min?_some (l : List Nat) (h : l ≠ []) : ∃ m, l.min? = some m := by
  cases l with
  | nil => exact absurd rfl h
  | cons a t => exact ⟨_, List.min?_cons⟩

/-- A non-empty list has a maximum. -/
theorem max?_some (l : List Nat) (h : l ≠ []) : ∃ m, l.max? = some m := by
  cases l with
  | nil => exact absurd rfl h
  | cons a t => exact ⟨_, List.max?_cons⟩

/-- Error message of the contiguity check in interactive_select. -/
def gapMsg (name : Str) : Str :=
  str "Cannot submit - selection has gap at " ++ [sq] ++ name ++ [sq] ++
    str ". Stacked PRs must be contiguous."

/-- The validation-and-mapping part of interactive_select from
src/cli/submit.rs lines 374-397. The multi-select UI produces `selections`,
a set of indices into the analysis segments (distinct and in bounds), which
is a parameter here; Iterator::min and max are List.min? and List.max?.
Rust slice indexing is embedded with getD (all sites are in bounds for
UI-produced selections); the unreachable unwrap panic on the gap search is
embedded as an Internal error. -/
def interactive_select (analysis : SubmissionAnalysis)
    (selections : List Nat) : Except Err (List Str) :=
  if selections.isEmpty then
    .ok (selections.map
      (fun i => (analysis.segments.getD i dfltSeg).bookmark.name))
  else
    let min_idx := selections.min?.getD 0
    let max_idx := selections.max?.getD 0
    let span := max_idx - min_idx + 1
    if span ≠ selections.length then
      match (List.range' min_idx span).find?
          (fun i => !(selections.contains i)) with
      | some gap_idx =>
        .error (.InvalidArgument
          (gapMsg (analysis.segments.getD gap_idx dfltSeg).bookmark.name))
      | none => .error (.Internal (str "unreachable: selection gap not found"))
    else
      .ok (selections.map
        (fun i => (analysis.segments.getD i dfltSeg).bookmark.name))

/-- C5: for a non-empty selection of distinct indices the selection is
accepted exactly when max - min + 1 equals the number of selected indices;
when the equation fails, the first index of the span missing from the
selection exists and the operation fails with InvalidArgument naming the
bookmark at that gap index, submitting nothing. -/
theorem interactive_select_contiguous (analysis : SubmissionAnalysis)
    (selections : List Nat) (hne : selections ≠ [])
    (hnd : selections.Nodup) :
    ((∃ out, interactive_select analysis selections = .ok out) ↔
      selections.max?.getD 0 - selections.min?.getD 0 + 1 =
        selections.length) ∧
    (selections.max?.getD 0 - selections.min?.getD 0 + 1 ≠
        selections.length →
      ∃ g, (List.range' (selections.min?.getD 0)
              (selections.max?.getD 0 - selections.min?.getD 0 + 1)).find?
            (fun i => !(selections.contains i)) = some g ∧
        g ∉ selections ∧
        interactive_select analysis selections =
          .error (.InvalidArgument
            (gapMsg (analysis.segments.getD g dfltSeg).bookmark.name))) := by
  obtain ⟨mn, hmn⟩ := min?_some selections hne
  obtain ⟨mx, hmx⟩ := max?_some selections hne
  have hMN : selections.min?.getD 0 = mn := by rw [hmn]; rfl
  have hMX : selections.max?.getD 0 = mx := by rw [hmx]; rfl
  have hempty : selections.isEmpty = false := by
    cases selections with
    | nil => exact absurd rfl hne
    | cons a t => rfl
  have hmem : ∀ a ∈ selections, a ∈ List.range' mn (mx - mn + 1) := by
    intro a ha
    have h1 := (min?_le_mem selections mn hmn).2 a ha
    have h2 := (max?_ge_mem selections mx hmx).2 a ha
    rw [List.mem_range'_1]
    omega
  have hgap : mx - mn + 1 ≠ selections.length →
      ∃ x ∈ List.range' mn (mx - mn + 1),
        (!(selections.contains x)) = true := by
    intro hneq
    by_contra hc
    push_neg at hc
    have hsub : ∀ x ∈ List.range' mn (mx - mn + 1), x ∈ selections := by
      intro x hx
      have hx2 := hc x hx
      cases hcx : selections.contains x with
      | true => exact (contains_mem selections x).mp hcx
      | false => exact absurd (by rw [hcx]; rfl) hx2
    have hcard1 : (List.range' mn (mx - mn + 1)).toFinset.card ≤
        selections.toFinset.card := by
      apply Finset.card_le_card
      intro x hx
      rw [List.mem_toFinset] at hx ⊢
      exact hsub x hx
    have hcard2 : selections.toFinset.card ≤
        (List.range' mn (mx - mn + 1)).toFinset.card := by
      apply Finset.card_le_card
      intro x hx
      rw [List.mem_toFinset] at hx ⊢
      exact hmem x hx
    have hn1 : (List.range' mn (mx - mn + 1)).toFinset.card = mx - mn + 1 := by
      rw [List.toFinset_card_of_nodup (List.nodup_range' mn (mx - mn + 1))]
      exact List.length_range' _ _ _
    have hn2 : selections.toFinset.card = selections.length :=
      List.toFinset_card_of_nodup hnd
    omega
  rw [hMN, hMX]
  have hbody : ∀ h : mx - mn + 1 ≠ selections.length, ∃ g,
      (List.range' mn (mx - mn + 1)).find?
        (fun i => !(selections.contains i)) = some g ∧
      g ∉ selections ∧
      interactive_select analysis selections =
        .error (.InvalidArgument
          (gapMsg (analysis.segments.getD g dfltSeg).bookmark.name)) := by
    intro hneq
    obtain ⟨x, hx, hxc⟩ := hgap hneq
    obtain ⟨g, hg⟩ := Option.isSome_iff_exists.mp
      ((@List.find?_isSome Nat (List.range' mn (mx - mn + 1))
        (fun i => !(selections.contains i))).mpr ⟨x, hx, hxc⟩)
    refine ⟨g, hg, ?_, ?_⟩
    · have hgp := List.find?_some hg
      intro hgmem
      have hcg : selections.contains g = true :=
        (contains_mem selections g).mpr hgmem
      rw [hcg] at hgp
      exact Bool.noConfusion hgp
    · rw [interactive_select, if_neg (by rw [hempty]; exact Bool.false_ne_true),
        hMN, hMX, if_pos hneq, hg]
  constructor
  · constructor
    · intro ⟨out, hout⟩
      by_contra hneq
      obtain ⟨g, _, _, hres⟩ := hbody hneq
      rw [hres] at hout
      exact Except.noConfusion hout
    · intro heq
      refine ⟨selections.map
        (fun i => (analysis.segments.getD i dfltSeg).bookmark.name), ?_⟩
      rw [interactive_select, if_neg (by rw [hempty]; exact Bool.false_ne_true),
        hMN, hMX, if_neg (by omega)]
  · exact hbody

/-- Witness for C5: selection with a gap, indices 0 and 2 over a three
segment stack, rejected naming the bookmark b at index 1. -/
theorem interactive_select_contiguous_witness :
    (let sa : AnalysisSegment := ⟨⟨str "a", true, true⟩, str "main", str "ta"⟩
     let sb : AnalysisSegment := ⟨⟨str "b", true, false⟩, str "a", str "tb"⟩
     let sc : AnalysisSegment := ⟨⟨str "c", false, false⟩, str "b", str "tc"⟩
     let analysis : SubmissionAnalysis := ⟨str "c", [sa, sb, sc]⟩
     interactive_select analysis [0, 2] =
       .error (.InvalidArgument (gapMsg (str "b")))) := by
  obtain ⟨g, hg, hgmem, hres⟩ := (interactive_select_contiguous
    ⟨str "c", [⟨⟨str "a", true, true⟩, str "main", str "ta"⟩,
      ⟨⟨str "b", true, false⟩, str "a", str "tb"⟩,
      ⟨⟨str "c", false, false⟩, str "b", str "tc"⟩]⟩
    [0, 2] (by decide) (by decide)).2 (by decide)
  have hg1 : some g = some 1 := by
    rw [← hg]
    decide
  rw [Option.some_inj.mp hg1] at hres
  exact hres

/-- Witness for C8 at a concrete branch and response. -/
theorem branch_ref_round_trip_witness :
    branch_ref (str "feat") = str "refs/heads/feat" ∧
    dropPre (str "refs/heads/")
      (branch_ref (str "feat")) = str "feat" ∧
    ¬ (str "refs/heads/").isPrefixOf
      (into_pull_request
        ⟨9, str "refs/heads/feat", str "refs/heads/main", str "t", false,
          ⟨str "https://h/"⟩⟩).head_ref = true := by
  have h := branch_ref_round_trip (str "feat")
    ⟨9, str "refs/heads/feat", str "refs/heads/main", str "t", false,
      ⟨str "https://h/"⟩⟩
    (by decide) (by decide) (by decide)
  exact ⟨h.2.1, h.2.2.2.1, h.2.2.2.2.1⟩

end JjRyu
